import Mathlib

set_option maxHeartbeats 1000000

/-!
Shallow embedding of the `value_pool` crate: the arena `ValuePool<T>`
(`src/lib.rs`), the `DoubleLinkedList<T>` built on top of it
(`src/linked_list.rs`) and the `SmartValuePool<T, O>` callback wrapper
(`src/smart_value_pool.rs`).  Machine integers (`usize`) are modelled as
`Nat`; arena references (`ValueRef<T>` / `UntypedValueRef`, wrappers around
`NonMaxUsize`) are modelled as their position, a `Nat`.  Fallible Rust code
(`Option`, the `?` operator, early `return None`) is modelled with `Option`;
`&mut self` methods become state-passing functions.  The translation follows
the `cfg(not(feature = "unsafe"))` code paths.
-/

/-- Value of `usize::MAX` on the 64-bit targets the crate is built for. -/
def USIZE_MAX : Nat := 2 ^ 64 - 1

/-- Embedding of `NonMaxUsize::new` (crate `nonmax`): `none` iff the argument
equals `usize::MAX`. -/
def nonMaxUsizeNew (index : Nat) : Option Nat :=
  if index = USIZE_MAX then none else some index

/-- Embedding of `ValueRef::<T>::new` (`src/lib.rs`), which calls
`NonMaxUsize::new(index).expect(..)`.  A panic is modelled as `none`; a
successful construction returns the stored position. -/
def ValueRef.new? (index : Nat) : Option Nat :=
  nonMaxUsizeNew index

/-- Embedding of `UntypedValueRef::new` (`src/lib.rs`), which also calls
`NonMaxUsize::new(index).expect(..)`. -/
def UntypedValueRef.new? (index : Nat) : Option Nat :=
  nonMaxUsizeNew index

/-- Embedding of `ValuePool<T>` (`src/lib.rs`): a growable store of optional
values (`store: Vec<Option<T>>`) plus the LIFO free list
(`open_indices: Vec<NonMaxUsize>`, top of the stack at the back). -/
structure ValuePool (α : Type) where
  store : List (Option α)
  openIndices : List Nat
deriving DecidableEq

/-- Embedding of `ValuePool::new`. -/
def ValuePool.new {α : Type} : ValuePool α :=
  ⟨[], []⟩

/-- Embedding of `ValuePool::element_count`:
`self.store.len() - self.open_indices.len()`. -/
def ValuePool.element_count {α : Type} (p : ValuePool α) : Nat :=
  p.store.length - p.openIndices.length

/-- Embedding of `ValuePool::is_empty`. -/
def ValuePool.is_empty {α : Type} (p : ValuePool α) : Bool :=
  p.element_count == 0

/-- Embedding of `ValuePool::waiting_positions`. -/
def ValuePool.waiting_positions {α : Type} (p : ValuePool α) : Nat :=
  p.openIndices.length

/-- Embedding of `ValuePool::get`:
`self.store.get(reference.index.get()).and_then(|x| x.as_ref())`. -/
def ValuePool.get {α : Type} (p : ValuePool α) (reference : Nat) : Option α :=
  (p.store[reference]?).bind id

/-- Embedding of `ValuePool::has_item`: `self.get(reference).is_some()`. -/
def ValuePool.has_item {α : Type} (p : ValuePool α) (reference : Nat) : Bool :=
  (p.get reference).isSome

/-- Embedding of `ValuePool::push`.  If `open_indices` is non-empty, its last
element is popped and that slot is overwritten, otherwise a new slot is
appended.  Returns the new pool and the returned `ValueRef` position. -/
def ValuePool.push {α : Type} (p : ValuePool α) (value : α) : ValuePool α × Nat :=
  match p.openIndices.getLast? with
  | some index => (⟨p.store.set index (some value), p.openIndices.dropLast⟩, index)
  | none => (⟨p.store ++ [some value], p.openIndices⟩, p.store.length)

/-- Embedding of `ValuePool::remove`: no-op unless the slot holds an item; the
trailing slot is popped off the store, any other slot is marked free and its
position pushed onto `open_indices`. -/
def ValuePool.remove {α : Type} (p : ValuePool α) (reference : Nat) : ValuePool α :=
  if ¬ p.has_item reference then p
  else if reference + 1 = p.store.length then ⟨p.store.dropLast, p.openIndices⟩
  else ⟨p.store.set reference none, p.openIndices ++ [reference]⟩

/-- Embedding of `ValuePool::take`: `mem::swap` a `None` into the slot (the
`?` on `get_mut` returns `None` for an out-of-range reference); the freed
position is pushed onto `open_indices` only if a value was actually taken. -/
def ValuePool.take {α : Type} (p : ValuePool α) (reference : Nat) :
    Option α × ValuePool α :=
  match p.store[reference]? with
  | none => (none, p)
  | some slot =>
    match slot with
    | some v => (some v, ⟨p.store.set reference none, p.openIndices ++ [reference]⟩)
    | none => (none, ⟨p.store.set reference none, p.openIndices⟩)

/-- Embedding of `ValuePool::next_push_ref`. -/
def ValuePool.next_push_ref {α : Type} (p : ValuePool α) : Nat :=
  match p.openIndices.getLast? with
  | none => p.store.length
  | some i => i

/-- Embedding of `Vec::swap` on the backing store (both indices must be in
bounds at every call site). -/
def listSwap {β : Type} (l : List β) (i j : Nat) : List β :=
  match l[i]?, l[j]? with
  | some a, some b => (l.set i b).set j a
  | _, _ => l

/-- Embedding of `ValuePool::swap`: `None` when either reference is out of the
store's current bounds, otherwise the two slots' contents are exchanged and
the indices are returned crosswise. -/
def ValuePool.swap {α : Type} (p : ValuePool α) (ref_1 ref_2 : Nat) :
    Option (ValuePool α × Nat × Nat) :=
  if p.store.length ≤ ref_1 ∨ p.store.length ≤ ref_2 then none
  else some (⟨listSwap p.store ref_1 ref_2, p.openIndices⟩, ref_2, ref_1)

/-- Helper modelling the statement pattern
`self.store.get_mut(r).unwrap().field = x` used by the linked list: rewrite
the item stored at `r` when it exists (the `unwrap` panics otherwise, which
is unreachable at the call sites where this helper is used). -/
def ValuePool.modifyItem {α : Type} (p : ValuePool α) (r : Nat) (f : α → α) :
    ValuePool α :=
  match p.get r with
  | some v => ⟨p.store.set r (some (f v)), p.openIndices⟩
  | none => p

/-- Helper modelling the pattern `self.store.get_mut(r)?.field = x`: rewrite
the item at `r`, or fail with `none` (the caller's `?`) when no item is
stored there. -/
def ValuePool.trySet {α : Type} (p : ValuePool α) (r : Nat) (f : α → α) :
    Option (ValuePool α) :=
  (p.get r).map (fun v => ⟨p.store.set r (some (f v)), p.openIndices⟩)

/-- Well-formedness of a pool's free list, maintained by every safe arena
operation: positions in `open_indices` are distinct, each of them addresses
an in-range empty slot, and every empty slot is accounted for (the number of
empty slots equals the free list's length). -/
def PoolWF {α : Type} (p : ValuePool α) : Prop :=
  p.openIndices.Nodup ∧
  (∀ i ∈ p.openIndices, p.store[i]? = some none) ∧
  p.store.countP (fun o => o.isNone) = p.openIndices.length

instance {α : Type} [DecidableEq α] (p : ValuePool α) : Decidable (PoolWF p) := by
  unfold PoolWF; infer_instance

/-- List helper: rewriting a slot to the value it already holds is the
identity. -/
theorem List.set_self_of_getElem? {β : Type} :
    ∀ (l : List β) (i : Nat) (a : β), l[i]? = some a → l.set i a = l := by
  intro l
  induction l with
  | nil => intro i a h; simp at h
  | cons x xs ih =>
    intro i a h
    cases i with
    | zero => simp_all
    | succ n =>
      simp only [List.getElem?_cons_succ] at h
      simp [List.set, ih n a h]

/-- List helper: how `countP` changes when a known slot is overwritten. -/
theorem List.countP_set_known {β : Type} (q : β → Bool) :
    ∀ (l : List β) (i : Nat) (a b : β), l[i]? = some b →
      (l.set i a).countP q + (if q b then 1 else 0) =
        l.countP q + (if q a then 1 else 0) := by
  intro l
  induction l with
  | nil => intro i a b h; simp at h
  | cons x xs ih =>
    intro i a b h
    cases i with
    | zero =>
      simp only [List.getElem?_cons_zero, Option.some.injEq] at h
      subst h
      simp only [List.set, List.countP_cons]
      omega
    | succ n =>
      simp only [List.getElem?_cons_succ] at h
      have := ih n a b h
      simp only [List.set, List.countP_cons]
      omega

/-- C9. The public index constructors `ValueRef::new` and
`UntypedValueRef::new` panic (modelled as `none`) exactly on input
`usize::MAX`; every smaller input yields an index at that position. -/
theorem valueRef_new_panics_iff_max (index : Nat) (_hle : index ≤ USIZE_MAX) :
    (ValueRef.new? index = none ↔ index = USIZE_MAX) ∧
    (UntypedValueRef.new? index = none ↔ index = USIZE_MAX) ∧
    (index < USIZE_MAX →
      ValueRef.new? index = some index ∧ UntypedValueRef.new? index = some index) := by
  unfold ValueRef.new? UntypedValueRef.new? nonMaxUsizeNew
  constructor
  · constructor
    · intro h
      by_contra hne
      simp [hne] at h
    · intro h; simp [h]
  · constructor
    · constructor
      · intro h
        by_contra hne
        simp [hne] at h
      · intro h; simp [h]
    · intro hlt
      have hne : index ≠ USIZE_MAX := Nat.ne_of_lt hlt
      simp [hne]

/-- Witness for C9 at the concrete inputs `5` and `usize::MAX`. -/
theorem valueRef_new_panics_iff_max_witness :
    (5 ≤ USIZE_MAX ∧ ValueRef.new? 5 = some 5) ∧
    (USIZE_MAX ≤ USIZE_MAX ∧ ValueRef.new? USIZE_MAX = none) := by
  have h5 : (5 : Nat) ≤ USIZE_MAX := by decide
  have h5lt : (5 : Nat) < USIZE_MAX := by decide
  refine ⟨⟨h5, ((valueRef_new_panics_iff_max 5 h5).2.2 h5lt).1⟩,
    ⟨Nat.le_refl _, ?_⟩⟩
  exact (valueRef_new_panics_iff_max USIZE_MAX (Nat.le_refl _)).1.mpr rfl

/-- C3. Pushing a value and immediately reading the returned reference gives
back the pushed value.  The hypothesis (every waiting position is in range)
holds for every pool constructible through the public API, whose free list
only ever receives in-range positions. -/
theorem push_get_roundtrip {α : Type} (p : ValuePool α) (v : α)
    (hopen : ∀ i ∈ p.openIndices, i < p.store.length) :
    (p.push v).1.get (p.push v).2 = some v := by
  unfold ValuePool.push ValuePool.get
  cases hl : p.openIndices.getLast? with
  | none =>
    simp only
    rw [List.getElem?_concat_length]
    rfl
  | some i =>
    have hmem : i ∈ p.openIndices := List.mem_of_getLast?_eq_some hl
    have hlt : i < p.store.length := hopen i hmem
    simp only
    rw [List.getElem?_set_self (by simpa using hlt)]
    rfl

/-- Witness for C3 on a pool with one waiting position. -/
theorem push_get_roundtrip_witness :
    (∀ i ∈ (⟨[some 7, none], [1]⟩ : ValuePool Nat).openIndices,
      i < (⟨[some 7, none], [1]⟩ : ValuePool Nat).store.length) ∧
    ((⟨[some 7, none], [1]⟩ : ValuePool Nat).push 9).1.get
      ((⟨[some 7, none], [1]⟩ : ValuePool Nat).push 9).2 = some 9 := by
  refine ⟨by decide, push_get_roundtrip _ 9 (by decide)⟩

/-- C6. `take` on an occupied slot returns its value; repeating the `take`
with no intervening modification returns `none` and leaves the pool
unchanged; `take` on an unoccupied or out-of-range reference returns `none`
and is a no-op. -/
theorem take_once_then_none {α : Type} (p : ValuePool α) (r : Nat) :
    (∀ v : α, p.get r = some v →
      (p.take r).1 = some v ∧
      ((p.take r).2.take r).1 = none ∧
      ((p.take r).2.take r).2 = (p.take r).2) ∧
    (p.get r = none → p.take r = (none, p)) := by
  constructor
  · intro v hv
    unfold ValuePool.get at hv
    have hslot : p.store[r]? = some (some v) := by
      cases h : p.store[r]? with
      | none => rw [h] at hv; simp at hv
      | some o =>
        rw [h] at hv
        cases o with
        | none => simp at hv
        | some w => simp at hv; simp [hv]
    have hr : r < p.store.length := by
      have := List.getElem?_eq_some_iff.mp hslot
      exact this.1
    unfold ValuePool.take
    rw [hslot]
    refine ⟨rfl, ?_, ?_⟩
    · simp only
      rw [List.getElem?_set_self (by simpa using hr)]
    · simp only
      rw [List.getElem?_set_self (by simpa using hr)]
      simp [List.set_set]
  · intro hnone
    unfold ValuePool.get at hnone
    unfold ValuePool.take
    cases h : p.store[r]? with
    | none => rfl
    | some o =>
      rw [h] at hnone
      cases o with
      | some w => simp at hnone
      | none =>
        simp only
        have : p.store.set r none = p.store := List.set_self_of_getElem? _ _ _ h
        rw [this]

/-- Witness for C6: a concrete occupied slot and a concrete empty slot. -/
theorem take_once_then_none_witness :
    ((⟨[some 3, some 4], []⟩ : ValuePool Nat).get 1 = some 4 ∧
      ((⟨[some 3, some 4], []⟩ : ValuePool Nat).take 1).1 = some 4 ∧
      (((⟨[some 3, some 4], []⟩ : ValuePool Nat).take 1).2.take 1).1 = none) ∧
    ((⟨[some 3, none], [1]⟩ : ValuePool Nat).get 1 = none ∧
      (⟨[some 3, none], [1]⟩ : ValuePool Nat).take 1 =
        (none, (⟨[some 3, none], [1]⟩ : ValuePool Nat))) := by
  have h1 := (take_once_then_none (⟨[some 3, some 4], []⟩ : ValuePool Nat) 1).1 4 (by decide)
  have h2 := (take_once_then_none (⟨[some 3, none], [1]⟩ : ValuePool Nat) 1).2 (by decide)
  exact ⟨⟨by decide, h1.1, h1.2.1⟩, ⟨by decide, h2⟩⟩

/-- C7. Freeing a non-trailing occupied position `pos` by `remove` and then
pushing returns exactly position `pos`; in general, `push` always reuses the
most recently freed waiting position (the back of `open_indices`) before
appending a new slot. -/
theorem remove_then_push_reuses_lifo {α : Type} (p : ValuePool α)
    (pos q : Nat) (v0 w v : α)
    (hocc : p.get pos = some v0) (hq : p.get q = some w) (hlt : pos < q) :
    ((p.remove pos).push v).2 = pos ∧
    (∀ (p' : ValuePool α) (u : α) (i : Nat),
      p'.openIndices.getLast? = some i → (p'.push u).2 = i) ∧
    (∀ (p' : ValuePool α) (u : α),
      p'.openIndices.getLast? = none → (p'.push u).2 = p'.store.length) := by
  refine ⟨?_, ?_, ?_⟩
  · have hitem : p.has_item pos = true := by
      unfold ValuePool.has_item
      rw [hocc]; rfl
    have hqlt : q < p.store.length := by
      unfold ValuePool.get at hq
      cases h : p.store[q]? with
      | none => rw [h] at hq; simp at hq
      | some o => exact (List.getElem?_eq_some_iff.mp h).1
    have hne : pos + 1 ≠ p.store.length := by omega
    unfold ValuePool.remove
    rw [if_neg (by simp [hitem]), if_neg hne]
    unfold ValuePool.push
    simp only
    rw [List.getLast?_concat]
  · intro p' u i hi
    unfold ValuePool.push
    rw [hi]
  · intro p' u hi
    unfold ValuePool.push
    rw [hi]

/-- Witness for C7: remove the slot at position 0 of a 2-element pool, then
push. -/
theorem remove_then_push_reuses_lifo_witness :
    ((⟨[some 3, some 4], []⟩ : ValuePool Nat).get 0 = some 3 ∧
      (⟨[some 3, some 4], []⟩ : ValuePool Nat).get 1 = some 4 ∧ 0 < 1) ∧
    (((⟨[some 3, some 4], []⟩ : ValuePool Nat).remove 0).push 9).2 = 0 := by
  refine ⟨⟨by decide, by decide, by decide⟩, ?_⟩
  exact (remove_then_push_reuses_lifo (⟨[some 3, some 4], []⟩ : ValuePool Nat)
    0 1 3 4 9 (by decide) (by decide) (by decide)).1

/-- Arena helper: `get` returns a value exactly when the addressed slot is in
range and occupied. -/
theorem ValuePool.get_eq_some {α : Type} {p : ValuePool α} {r : Nat} {v : α} :
    p.get r = some v ↔ p.store[r]? = some (some v) := by
  unfold ValuePool.get
  cases h : p.store[r]? with
  | none => simp
  | some o => cases o <;> simp

/-- One public safe mutating arena operation, for C4's interleavings. -/
inductive PoolOp (α : Type) where
  | push (v : α)
  | remove (r : Nat)
  | take (r : Nat)

/-- Apply one operation to a pool. -/
def applyOp {α : Type} (p : ValuePool α) : PoolOp α → ValuePool α
  | .push v => (p.push v).1
  | .remove r => p.remove r
  | .take r => (p.take r).2

/-- Run a sequence of operations. -/
def runOps {α : Type} (p : ValuePool α) (ops : List (PoolOp α)) : ValuePool α :=
  ops.foldl applyOp p

/-- Number of `push` calls in a sequence of operations. -/
def pushCount {α : Type} : List (PoolOp α) → Nat
  | [] => 0
  | .push _ :: rest => pushCount rest + 1
  | .remove _ :: rest => pushCount rest
  | .take _ :: rest => pushCount rest

/-- Whether an operation, applied to pool `p`, actually removes a value: a
`remove` whose target slot was occupied, or a `take` that returns `Some`. -/
def removesValue {α : Type} (p : ValuePool α) : PoolOp α → Bool
  | .push _ => false
  | .remove r => p.has_item r
  | .take r => (p.take r).1.isSome

/-- Number of removals along a run that actually removed a value. -/
def succRemoveCount {α : Type} (p : ValuePool α) : List (PoolOp α) → Nat
  | [] => 0
  | op :: rest =>
    (if removesValue p op then 1 else 0) + succRemoveCount (applyOp p op) rest

/-- Arena `push` preserves well-formedness and increments `element_count`. -/
theorem push_wf_count {α : Type} (p : ValuePool α) (v : α) (hwf : PoolWF p) :
    PoolWF (p.push v).1 ∧ (p.push v).1.element_count = p.element_count + 1 := by
  obtain ⟨hnd, hmem, hcnt⟩ := hwf
  cases hl : p.openIndices.getLast? with
  | none =>
    have hopen : p.openIndices = [] := List.getLast?_eq_none_iff.mp hl
    have hpush : p.push v = (⟨p.store ++ [some v], p.openIndices⟩, p.store.length) := by
      unfold ValuePool.push
      rw [hl]
    rw [hpush]
    constructor
    · refine ⟨hnd, ?_, ?_⟩
      · intro i hi
        rw [hopen] at hi
        simp at hi
      · simp only [List.countP_append, hcnt]
        simp [List.countP_cons]
    · unfold ValuePool.element_count
      simp only [List.length_append, List.length_cons, List.length_nil, hopen]
      simp
  | some i =>
    have hne : p.openIndices ≠ [] := by
      intro h; rw [h] at hl; simp at hl
    have hpush : p.push v =
        (⟨p.store.set i (some v), p.openIndices.dropLast⟩, i) := by
      unfold ValuePool.push
      rw [hl]
    rw [hpush]
    have hi_mem : i ∈ p.openIndices := List.mem_of_getLast?_eq_some hl
    have hslot : p.store[i]? = some none := hmem i hi_mem
    have hilt : i < p.store.length := (List.getElem?_eq_some_iff.mp hslot).1
    have hdecomp : p.openIndices.dropLast ++ [i] = p.openIndices := by
      have := List.dropLast_append_getLast? i hl
      exact this
    have hnotin : i ∉ p.openIndices.dropLast := by
      intro hin
      rw [← hdecomp] at hnd
      rcases List.nodup_append.mp hnd with ⟨_, _, hdisj⟩
      exact hdisj hin (by simp)
    have hcount' : (p.store.set i (some v)).countP (fun o => o.isNone) + 1 =
        p.openIndices.length := by
      have h2 : (p.store.set i (some v)).countP (fun o => o.isNone) + 1 =
          p.store.countP (fun o => o.isNone) + 0 :=
        List.countP_set_known (fun o => o.isNone) p.store i (some v) none hslot
      omega
    have hopen_le : p.openIndices.length ≤ p.store.length := by
      rw [← hcnt]; exact List.countP_le_length _
    constructor
    · refine ⟨List.Nodup.sublist (List.dropLast_sublist _) hnd, ?_, ?_⟩
      · intro j hj
        have hj_mem : j ∈ p.openIndices := (List.dropLast_sublist _).mem hj
        have hji : j ≠ i := fun h => hnotin (h ▸ hj)
        rw [List.getElem?_set_ne (fun h => hji h.symm)]
        exact hmem j hj_mem
      · show (p.store.set i (some v)).countP (fun o => o.isNone) =
          p.openIndices.dropLast.length
        rw [List.length_dropLast]
        omega
    · unfold ValuePool.element_count
      simp only [List.length_set, List.length_dropLast]
      have hopen_pos : 0 < p.openIndices.length := by
        cases h : p.openIndices with
        | nil => exact absurd h hne
        | cons a l => simp [h]
      omega

/-- Arena `remove` preserves well-formedness and decrements `element_count`
exactly when the slot held an item. -/
theorem remove_wf_count {α : Type} (p : ValuePool α) (r : Nat) (hwf : PoolWF p) :
    PoolWF (p.remove r) ∧
    (p.remove r).element_count + (if p.has_item r then 1 else 0) = p.element_count := by
  obtain ⟨hnd, hmem, hcnt⟩ := hwf
  unfold ValuePool.remove
  by_cases hitem : p.has_item r
  · have hv : ∃ v, p.get r = some v := by
      unfold ValuePool.has_item at hitem
      cases h : p.get r with
      | none => rw [h] at hitem; simp at hitem
      | some v => exact ⟨v, rfl⟩
    obtain ⟨v, hv⟩ := hv
    have hslot : p.store[r]? = some (some v) := ValuePool.get_eq_some.mp hv
    have hrlt : r < p.store.length := (List.getElem?_eq_some_iff.mp hslot).1
    have hr_not_open : r ∉ p.openIndices := by
      intro hin
      have := hmem r hin
      rw [hslot] at this
      simp at this
    rw [if_neg (by simp [hitem]), if_pos hitem]
    by_cases htrail : r + 1 = p.store.length
    · rw [if_pos htrail]
      have hlast : p.store.getLast? = some (some v) := by
        rw [List.getLast?_eq_getElem?]
        have : p.store.length - 1 = r := by omega
        rw [this, hslot]
      have hsne : p.store ≠ [] := by
        intro h; rw [h] at hslot; simp at hslot
      have hdecomp : p.store.dropLast ++ [some v] = p.store :=
        List.dropLast_append_getLast? _ hlast
      have hcntdrop : p.store.dropLast.countP (fun o => o.isNone) =
          p.openIndices.length := by
        have h2 : (p.store.dropLast ++ [some v]).countP (fun o => o.isNone) =
            p.store.countP (fun o => o.isNone) := by rw [hdecomp]
        simp only [List.countP_append] at h2
        have h3 : ([some v] : List (Option α)).countP (fun o => o.isNone) = 0 := rfl
        omega
      refine ⟨⟨hnd, ?_, hcntdrop⟩, ?_⟩
      · intro i hi
        have hislot := hmem i hi
        have hilt : i < p.store.length := (List.getElem?_eq_some_iff.mp hislot).1
        have hir : i ≠ r := by
          intro h
          rw [h, hslot] at hislot
          simp at hislot
        rw [List.getElem?_dropLast, if_pos (by omega)]
        exact hislot
      · unfold ValuePool.element_count
        simp only [List.length_dropLast]
        have hopen_le : p.openIndices.length ≤ p.store.dropLast.length := by
          rw [← hcntdrop]; exact List.countP_le_length _
        simp only [List.length_dropLast] at hopen_le
        omega
    · rw [if_neg htrail]
      have hcount' : (p.store.set r none).countP (fun o => o.isNone) =
          p.openIndices.length + 1 := by
        have h2 : (p.store.set r none).countP (fun o => o.isNone) + 0 =
            p.store.countP (fun o => o.isNone) + 1 :=
          List.countP_set_known (fun o => o.isNone) p.store r none (some v) hslot
        omega
      refine ⟨⟨?_, ?_, ?_⟩, ?_⟩
      · rw [List.nodup_append]
        exact ⟨hnd, List.nodup_singleton r, by
          intro a ha hb
          simp at hb
          exact hr_not_open (hb ▸ ha)⟩
      · intro i hi
        rcases List.mem_append.mp hi with hi' | hi'
        · have hir : i ≠ r := fun h => hr_not_open (h ▸ hi')
          rw [List.getElem?_set_ne (fun h => hir h.symm)]
          exact hmem i hi'
        · have : i = r := by simpa using hi'
          subst this
          rw [List.getElem?_set_self (by simpa using hrlt)]
      · simp only [List.length_append, List.length_cons, List.length_nil]
        omega
      · unfold ValuePool.element_count
        simp only [List.length_set, List.length_append, List.length_cons, List.length_nil]
        have h4 : p.openIndices.length + 1 ≤ p.store.length := by
          have h3 := List.countP_le_length (l := p.store.set r none) (fun o => o.isNone)
          simp only [List.length_set] at h3
          omega
        omega
  · rw [if_pos (by simp [hitem]), if_neg hitem]
    exact ⟨⟨hnd, hmem, hcnt⟩, by omega⟩

/-- Arena `take` preserves well-formedness and decrements `element_count`
exactly when it returns a value. -/
theorem take_wf_count {α : Type} (p : ValuePool α) (r : Nat) (hwf : PoolWF p) :
    PoolWF (p.take r).2 ∧
    (p.take r).2.element_count + (if (p.take r).1.isSome then 1 else 0) =
      p.element_count := by
  obtain ⟨hnd, hmem, hcnt⟩ := hwf
  unfold ValuePool.take
  cases hslot : p.store[r]? with
  | none => exact ⟨⟨hnd, hmem, hcnt⟩, by simp⟩
  | some slot =>
    have hrlt : r < p.store.length := (List.getElem?_eq_some_iff.mp hslot).1
    cases slot with
    | none =>
      have hset : p.store.set r none = p.store := List.set_self_of_getElem? _ _ _ hslot
      simp only [hset]
      exact ⟨⟨hnd, hmem, hcnt⟩, by simp⟩
    | some v =>
      have hr_not_open : r ∉ p.openIndices := by
        intro hin
        have := hmem r hin
        rw [hslot] at this
        simp at this
      have hcount' : (p.store.set r none).countP (fun o => o.isNone) =
          p.openIndices.length + 1 := by
        have h2 : (p.store.set r none).countP (fun o => o.isNone) + 0 =
            p.store.countP (fun o => o.isNone) + 1 :=
          List.countP_set_known (fun o => o.isNone) p.store r none (some v) hslot
        omega
      refine ⟨⟨?_, ?_, ?_⟩, ?_⟩
      · rw [List.nodup_append]
        exact ⟨hnd, List.nodup_singleton r, by
          intro a ha hb
          simp at hb
          exact hr_not_open (hb ▸ ha)⟩
      · intro i hi
        rcases List.mem_append.mp hi with hi' | hi'
        · have hir : i ≠ r := fun h => hr_not_open (h ▸ hi')
          rw [List.getElem?_set_ne (fun h => hir h.symm)]
          exact hmem i hi'
        · have : i = r := by simpa using hi'
          subst this
          rw [List.getElem?_set_self (by simpa using hrlt)]
      · simp only [List.length_append, List.length_cons, List.length_nil]
        omega
      · unfold ValuePool.element_count
        simp only [List.length_set, List.length_append, List.length_cons,
          List.length_nil, Option.isSome_some, if_true]
        have h4 : p.openIndices.length + 1 ≤ p.store.length := by
          have h3 := List.countP_le_length (l := p.store.set r none) (fun o => o.isNone)
          simp only [List.length_set] at h3
          omega
        omega

/-- Generalised form of C4 over an arbitrary well-formed starting pool. -/
theorem runOps_count {α : Type} (ops : List (PoolOp α)) (p : ValuePool α)
    (hwf : PoolWF p) :
    PoolWF (runOps p ops) ∧
    (runOps p ops).element_count + succRemoveCount p ops =
      p.element_count + pushCount ops := by
  induction ops generalizing p with
  | nil => exact ⟨hwf, by simp [runOps, succRemoveCount, pushCount]⟩
  | cons op rest ih =>
    cases op with
    | push v =>
      have hstep := push_wf_count p v hwf
      have hrest := ih (p.push v).1 hstep.1
      refine ⟨hrest.1, ?_⟩
      have hsucc : succRemoveCount p (PoolOp.push v :: rest) =
          succRemoveCount (p.push v).1 rest := by
        simp [succRemoveCount, removesValue, applyOp]
      have hpc : pushCount (PoolOp.push v :: rest) = pushCount rest + 1 := rfl
      have hrn : runOps p (PoolOp.push v :: rest) = runOps (p.push v).1 rest := rfl
      rw [hsucc, hpc, hrn]
      have h1 := hrest.2
      have h2 := hstep.2
      omega
    | remove r =>
      have hstep := remove_wf_count p r hwf
      have hrest := ih (p.remove r) hstep.1
      refine ⟨hrest.1, ?_⟩
      have hsucc : succRemoveCount p (PoolOp.remove r :: rest) =
          (if p.has_item r then 1 else 0) + succRemoveCount (p.remove r) rest := by
        simp [succRemoveCount, removesValue, applyOp]
      have hpc : pushCount (PoolOp.remove r :: rest) = pushCount rest := rfl
      have hrn : runOps p (PoolOp.remove r :: rest) = runOps (p.remove r) rest := rfl
      rw [hsucc, hpc, hrn]
      have h1 := hrest.2
      have h2 := hstep.2
      omega
    | take r =>
      have hstep := take_wf_count p r hwf
      have hrest := ih (p.take r).2 hstep.1
      refine ⟨hrest.1, ?_⟩
      have hsucc : succRemoveCount p (PoolOp.take r :: rest) =
          (if (p.take r).1.isSome then 1 else 0) + succRemoveCount (p.take r).2 rest := by
        simp [succRemoveCount, removesValue, applyOp]
      have hpc : pushCount (PoolOp.take r :: rest) = pushCount rest := rfl
      have hrn : runOps p (PoolOp.take r :: rest) = runOps (p.take r).2 rest := rfl
      rw [hsucc, hpc, hrn]
      have h1 := hrest.2
      have h2 := hstep.2
      omega

/-- C4. Starting from a fresh pool, after any interleaving of the safe
operations `push`, `remove` and `take`, `element_count` equals the number of
pushes performed minus the number of removals that actually removed a value
(a `remove` of an occupied slot, or a `take` that returned `Some`).  Every
point of an interleaving is the run of one of its prefixes, so this covers
every intermediate state. -/
theorem element_count_invariant {α : Type} (ops : List (PoolOp α)) :
    (runOps ValuePool.new ops).element_count =
      pushCount ops - succRemoveCount ValuePool.new ops ∧
    succRemoveCount ValuePool.new ops ≤ pushCount ops := by
  have h := runOps_count ops ValuePool.new (by refine ⟨List.nodup_nil, ?_, rfl⟩; intro i hi; simp [ValuePool.new] at hi)
  have hnew : (ValuePool.new : ValuePool α).element_count = 0 := rfl
  rw [hnew] at h
  omega

/-- Embedding of `DoubleLinkedNode<T>` (`src/linked_list.rs`): a stored value
plus optional arena references to the neighbouring nodes. -/
structure DoubleLinkedNode (α : Type) where
  value : α
  prev : Option Nat
  next : Option Nat
deriving DecidableEq

/-- Embedding of `DoubleLinkedList<T>`: the node arena plus the `start` and
`end` references (`end` is a Lean keyword, so the field is named `endRef`).
A `DoubleLinkedView<T>` is just a wrapped arena reference and is modelled as
the reference itself (a `Nat`). -/
structure DoubleLinkedList (α : Type) where
  store : ValuePool (DoubleLinkedNode α)
  start : Nat
  endRef : Nat
deriving DecidableEq

/-- Embedding of `DoubleLinkedList::new` (`ValueRef::new(0)` sentinels). -/
def DoubleLinkedList.new {α : Type} : DoubleLinkedList α :=
  ⟨ValuePool.new, 0, 0⟩

/-- Embedding of `DoubleLinkedList::len`: `self.store.element_count()`. -/
def DoubleLinkedList.len {α : Type} (l : DoubleLinkedList α) : Nat :=
  l.store.element_count

/-- Iterated loop body `value_ref = self.store.get(value_ref)?.prev?`, the
backward walk shared by `get_left_neighbour` and `index_to_valueref`. -/
def walkPrev {α : Type} (l : DoubleLinkedList α) : Nat → Nat → Option Nat
  | 0, r => some r
  | n + 1, r =>
    match l.store.get r with
    | none => none
    | some node =>
      match node.prev with
      | none => none
      | some p => walkPrev l n p

/-- Iterated loop body `value_ref = self.store.get(value_ref)?.next?`, the
forward walk shared by `get_right_neighbour` and `index_to_valueref`. -/
def walkNext {α : Type} (l : DoubleLinkedList α) : Nat → Nat → Option Nat
  | 0, r => some r
  | n + 1, r =>
    match l.store.get r with
    | none => none
    | some node =>
      match node.next with
      | none => none
      | some p => walkNext l n p

/-- Embedding of `DoubleLinkedList::get_left_neighbour`: `n == 0` returns a
copy of the view without touching the store; otherwise the loop follows `n`
`prev` links, failing if any step does not resolve. -/
def DoubleLinkedList.get_left_neighbour {α : Type} (l : DoubleLinkedList α)
    (view : Nat) (n : Nat) : Option Nat :=
  if n = 0 then some view
  else walkPrev l n view

/-- Embedding of `DoubleLinkedList::get_right_neighbour`. -/
def DoubleLinkedList.get_right_neighbour {α : Type} (l : DoubleLinkedList α)
    (view : Nat) (n : Nat) : Option Nat :=
  if n = 0 then some view
  else walkNext l n view

/-- Embedding of `DoubleLinkedList::index_to_valueref`: out-of-range gives
`None`; the last and first positions short-circuit to `end`/`start`; upper
half walks backwards from `end` (`len - 1 - index` steps), lower half walks
forwards from `start` (`index` steps). -/
def DoubleLinkedList.index_to_valueref {α : Type} (l : DoubleLinkedList α)
    (index : Nat) : Option Nat :=
  if l.len ≤ index then none
  else if index = l.len - 1 then some l.endRef
  else if index = 0 then some l.start
  else if l.len / 2 < index then walkPrev l (l.len - 1 - index) l.endRef
  else walkNext l index l.start

/-- Embedding of `DoubleLinkedList::get_view`. -/
def DoubleLinkedList.get_view {α : Type} (l : DoubleLinkedList α) (index : Nat) :
    Option Nat :=
  l.index_to_valueref index

/-- Embedding of `DoubleLinkedList::peek_view`. -/
def DoubleLinkedList.peek_view {α : Type} (l : DoubleLinkedList α) (view : Nat) :
    Option α :=
  (l.store.get view).map (fun n => n.value)

/-- Embedding of `DoubleLinkedList::push`: an empty list creates the sole
node and points `start`/`end` at it; otherwise the new node is linked after
the current `end` node. -/
def DoubleLinkedList.push {α : Type} (l : DoubleLinkedList α) (value : α) :
    DoubleLinkedList α × Nat :=
  if l.store.element_count = 0 then
    let res := l.store.push ⟨value, none, none⟩
    (⟨res.1, res.2, res.2⟩, res.2)
  else
    let cur_last_ref := l.endRef
    let res := l.store.push ⟨value, some cur_last_ref, none⟩
    let store2 := res.1.modifyItem cur_last_ref
      (fun n => { n with next := some res.2 })
    (⟨store2, l.start, res.2⟩, res.2)

/-- Embedding of `DoubleLinkedList::insert_left`: reads the viewed node's
`prev` (failing, without any mutation, if the view is stale), pushes the new
node, rewires the old left neighbour's `next` (or `start` when inserting at
the head) and the viewed node's `prev`. -/
def DoubleLinkedList.insert_left {α : Type} (l : DoubleLinkedList α)
    (view : Nat) (value : α) : Option (DoubleLinkedList α × Nat) :=
  match l.store.get view with
  | none => none
  | some node =>
    let view_node_prev := node.prev
    let res := l.store.push ⟨value, view_node_prev, some view⟩
    let after_left : ValuePool (DoubleLinkedNode α) × Nat :=
      match view_node_prev with
      | some left =>
        (res.1.modifyItem left (fun n => { n with next := some res.2 }), l.start)
      | none => (res.1, res.2)
    let store3 := after_left.1.modifyItem view
      (fun n => { n with prev := some res.2 })
    some (⟨store3, after_left.2, l.endRef⟩, res.2)

/-- Embedding of `DoubleLinkedList::insert`: translate the logical position
(failing leaves the list untouched), then `insert_left` of the found node. -/
def DoubleLinkedList.insert {α : Type} (l : DoubleLinkedList α) (index : Nat)
    (value : α) : DoubleLinkedList α × Option Nat :=
  match l.index_to_valueref index with
  | none => (l, none)
  | some node_ref =>
    match l.insert_left node_ref value with
    | none => (l, none)
    | some res => (res.1, some res.2)

/-- Loop of `DoubleLinkedList::multi_push_front`: each further value becomes
the new first node, and the previous first node's `prev` is pointed at it. -/
def multiPushFrontLoop {α : Type} (store : ValuePool (DoubleLinkedNode α))
    (first_node_view : Nat) : List α → ValuePool (DoubleLinkedNode α) × Nat
  | [] => (store, first_node_view)
  | value :: rest =>
    let res := store.push ⟨value, none, some first_node_view⟩
    let store2 := res.1.modifyItem first_node_view
      (fun n => { n with prev := some res.2 })
    multiPushFrontLoop store2 res.2 rest

/-- Embedding of `DoubleLinkedList::multi_push_front`.  An empty iterator
aborts via `values.next()?` before any mutation.  On a non-empty list the
source executes `self.store.get_mut(self.end).unwrap().prev =
Some(first_node_view)` — it rewires the `end` node's `prev` (the commented
out line directly below it in the source targets `self.start` instead). -/
def DoubleLinkedList.multi_push_front {α : Type} (l : DoubleLinkedList α)
    (values : List α) : DoubleLinkedList α × Option Unit :=
  match values with
  | [] => (l, none)
  | v :: rest =>
    if l.len = 0 then
      let res := l.store.push ⟨v, none, none⟩
      let res2 := multiPushFrontLoop res.1 res.2 rest
      (⟨res2.1, res2.2, l.endRef⟩, some ())
    else
      let res := l.store.push ⟨v, none, some l.start⟩
      let store2 := res.1.modifyItem l.endRef
        (fun n => { n with prev := some res.2 })
      let res2 := multiPushFrontLoop store2 res.2 rest
      (⟨res2.1, res2.2, l.endRef⟩, some ())

/-- Embedding of `DoubleLinkedList::pop`: reads the `end` node (`?`), clears
`next` of the node before it (`prev`, with `ValueRef::new(0)` as fallback
for a headless node; the `?` on this lookup aborts without mutation), then
`take`s the `end` slot and retargets `end`. -/
def DoubleLinkedList.pop {α : Type} (l : DoubleLinkedList α) :
    Option α × DoubleLinkedList α :=
  match l.store.get l.endRef with
  | none => (none, l)
  | some last_node =>
    let before_last_ref := last_node.prev.getD 0
    match l.store.get before_last_ref with
    | none => (none, l)
    | some _ =>
      let store1 := l.store.modifyItem before_last_ref
        (fun n => { n with next := none })
      let res := store1.take l.endRef
      (res.1.map (fun n => n.value), ⟨res.2, l.start, before_last_ref⟩)

/-- Match arm pattern `Some(x) if x == self_idx => fallback, x => x` used by
`DoubleLinkedList::swap` when reassigning a swapped node's links. -/
def swapAdjust (candidate : Option Nat) (self_idx : Nat) (fallback : Option Nat) :
    Option Nat :=
  match candidate with
  | some x => if x = self_idx then fallback else some x
  | none => none

/-- Embedding of `DoubleLinkedList::swap` (the safe, non-relocating variant):
reads both nodes (early `None` without mutation if either view is stale),
reassigns the two nodes' links, rewires the four outside neighbours (each
through a fallible `get_mut(..)?`, so a failure aborts keeping the mutations
already made), and finally retargets `start`/`end` if either view was an
endpoint. -/
def DoubleLinkedList.swap {α : Type} (l : DoubleLinkedList α)
    (view1 view2 : Nat) : DoubleLinkedList α × Option Unit :=
  match l.store.get view1 with
  | none => (l, none)
  | some node1 =>
  match l.store.get view2 with
  | none => (l, none)
  | some node2 =>
    let node1_prev := node1.prev
    let node1_next := node1.next
    let node2_prev := node2.prev
    let node2_next := node2.next
    match l.store.trySet view1 (fun n =>
        { n with prev := swapAdjust node2_prev view1 node1_next,
                 next := swapAdjust node2_next view1 node1_prev }) with
    | none => (l, none)
    | some store1 =>
    let left1 : Option (ValuePool (DoubleLinkedNode α)) :=
      match node1_prev with
      | some left =>
        if left = view2 then some store1
        else store1.trySet left (fun n => { n with next := some view2 })
      | none => some store1
    match left1 with
    | none => (⟨store1, l.start, l.endRef⟩, none)
    | some store2 =>
    let right1 : Option (ValuePool (DoubleLinkedNode α)) :=
      match node1_next with
      | some right =>
        if right = view2 then some store2
        else store2.trySet right (fun n => { n with prev := some view2 })
      | none => some store2
    match right1 with
    | none => (⟨store2, l.start, l.endRef⟩, none)
    | some store3 =>
    match store3.trySet view2 (fun n =>
        { n with prev := swapAdjust node1_prev view2 node2_next,
                 next := swapAdjust node1_next view2 node2_prev }) with
    | none => (⟨store3, l.start, l.endRef⟩, none)
    | some store4 =>
    let left2 : Option (ValuePool (DoubleLinkedNode α)) :=
      match node2_prev with
      | some left =>
        if left = view1 then some store4
        else store4.trySet left (fun n => { n with next := some view1 })
      | none => some store4
    match left2 with
    | none => (⟨store4, l.start, l.endRef⟩, none)
    | some store5 =>
    let right2 : Option (ValuePool (DoubleLinkedNode α)) :=
      match node2_next with
      | some right =>
        if right = view1 then some store5
        else store5.trySet right (fun n => { n with prev := some view1 })
      | none => some store5
    match right2 with
    | none => (⟨store5, l.start, l.endRef⟩, none)
    | some store6 =>
    let start1 := if view1 = l.start then view2
      else if view2 = l.start then view1 else l.start
    let end1 := if view1 = l.endRef then view2
      else if view2 = l.endRef then view1 else l.endRef
    (⟨store6, start1, end1⟩, some ())

/-- Order of values reachable from `start` by following `next` links, the
sequence observed by the list's iterators and by `Vec::from` (which drains
the nodes front to back).  The store's size bounds the walk, which suffices
for every well-formed list. -/
def toListAux {α : Type} (p : ValuePool (DoubleLinkedNode α)) :
    Nat → Option Nat → List α
  | 0, _ => []
  | _ + 1, none => []
  | fuel + 1, some r =>
    match p.get r with
    | none => []
    | some node => node.value :: toListAux p fuel node.next

/-- Values of the list in list order. -/
def DoubleLinkedList.toList {α : Type} (l : DoubleLinkedList α) : List α :=
  toListAux l.store l.store.store.length (some l.start)

/-- Embedding of `SmartValuePool<T, O>` (`src/smart_value_pool.rs`): the
wrapped pool plus the two registered callbacks.  A Rust callback
`fn(&mut ValuePool<T>, &mut O)` is modelled as a function returning the
updated pool and object. -/
structure SmartValuePool (α ω : Type) where
  pool : ValuePool α
  on_empty : ValuePool α → ω → ValuePool α × ω
  on_empty_push : ValuePool α → Nat → ω → ValuePool α × ω

/-- Embedding of `SmartValuePool::smart_push`: push, then invoke
`on_empty_push` iff `element_count == 1` afterwards. -/
def SmartValuePool.smart_push {α ω : Type} (s : SmartValuePool α ω)
    (value : α) (object : ω) : SmartValuePool α ω × Nat × ω :=
  let res := s.pool.push value
  if res.1.element_count = 1 then
    let cb := s.on_empty_push res.1 res.2 object
    (⟨cb.1, s.on_empty, s.on_empty_push⟩, res.2, cb.2)
  else (⟨res.1, s.on_empty, s.on_empty_push⟩, res.2, object)

/-- Embedding of `SmartValuePool::smart_take`: take, then invoke `on_empty`
iff the pool `is_empty` afterwards. -/
def SmartValuePool.smart_take {α ω : Type} (s : SmartValuePool α ω)
    (reference : Nat) (object : ω) : SmartValuePool α ω × Option α × ω :=
  let res := s.pool.take reference
  if res.2.is_empty then
    let cb := s.on_empty res.2 object
    (⟨cb.1, s.on_empty, s.on_empty_push⟩, res.1, cb.2)
  else (⟨res.2, s.on_empty, s.on_empty_push⟩, res.1, object)

/-- Embedding of `SmartValuePool::smart_remove`: remove, then invoke
`on_empty` iff the pool `is_empty` afterwards. -/
def SmartValuePool.smart_remove {α ω : Type} (s : SmartValuePool α ω)
    (reference : Nat) (object : ω) : SmartValuePool α ω × ω :=
  let pool1 := s.pool.remove reference
  if pool1.is_empty then
    let cb := s.on_empty pool1 object
    (⟨cb.1, s.on_empty, s.on_empty_push⟩, cb.2)
  else (⟨pool1, s.on_empty, s.on_empty_push⟩, object)

/-- Smart pool over an empty arena whose callbacks count their invocations in
the caller-supplied object: `on_empty` adds 1, `on_empty_push` adds 100. -/
def counterSmartPool : SmartValuePool Nat Nat :=
  ⟨ValuePool.new, fun p object => (p, object + 1),
    fun p _ object => (p, object + 100)⟩

/-- C8, divergence witness.  `smart_remove` on an already-empty pool removes
nothing (no `element_count` transition happens, the count is 0 before and
after), yet the `on_empty` callback is invoked — the counter object comes
back as 1 — and `smart_take` on the same empty pool behaves likewise,
although the module documentation promises the callback fires only when a
call changes the state from one element to empty.  (`smart_push` itself is
fine: pushing into the empty pool fires `on_empty_push` exactly once.) -/
theorem smart_remove_on_empty_fires_callback :
    counterSmartPool.pool.element_count = 0 ∧
    (counterSmartPool.smart_remove 0 0).1.pool.element_count = 0 ∧
    (counterSmartPool.smart_remove 0 0).2 = 1 ∧
    (counterSmartPool.smart_take 0 0).2.1 = none ∧
    (counterSmartPool.smart_take 0 0).2.2 = 1 ∧
    (counterSmartPool.smart_push 7 0).2.2 = 100 := by
  refine ⟨rfl, rfl, rfl, rfl, rfl, rfl⟩

/-- List reachable from the empty list by `push(1); push(2);
multi_push_front([3])`, the input on which C1 fails. -/
def c1FailingList : DoubleLinkedList Nat :=
  (((DoubleLinkedList.new.push 1).1.push 2).1.multi_push_front [3]).1

/-- C1, divergence witness.  After `push(1); push(2); multi_push_front([3])`
the list has three nodes (values from head: 3, 1, 2 at arena slots 2, 0, 1),
but `multi_push_front` rewired `prev` of the `end` node instead of the old
`start` node: slots 0 and 2 both carry `prev = None` although only the
`start` node (slot 2) may; and the `end` node (slot 1) claims slot 2 as its
`prev` neighbour, yet slot 2's `next` points at slot 0, not back at slot 1.
This violates each of the claimed link invariants on a list reachable by
public mutating operations. -/
theorem multi_push_front_breaks_prev_invariant :
    c1FailingList.len = 3 ∧
    c1FailingList.start = 2 ∧
    c1FailingList.endRef = 1 ∧
    c1FailingList.toList = [3, 1, 2] ∧
    (c1FailingList.store.get 2).map (fun n => n.prev) = some none ∧
    (c1FailingList.store.get 0).map (fun n => n.prev) = some none ∧
    (0 : Nat) ≠ c1FailingList.start ∧
    (c1FailingList.store.get 1).map (fun n => n.prev) = some (some 2) ∧
    (c1FailingList.store.get 2).map (fun n => n.next) = some (some 0) := by
  refine ⟨rfl, rfl, rfl, rfl, rfl, rfl, by decide, rfl, rfl⟩

/-- The 2-element list `[1, 2]` built by two pushes (slot 0 holds 1, slot 1
holds 2). -/
def c5BaseList : DoubleLinkedList Nat :=
  ((DoubleLinkedList.new.push 1).1.push 2).1

/-- C5 intermediate state: the same list after the safe `swap` of the views
of its two nodes (list order `[2, 1]`) followed by one successful `pop`. -/
def c5Singleton : DoubleLinkedList Nat :=
  ((c5BaseList.swap 0 1).1.pop).2

/-- C5, divergence witness.  The views used for the swap come from
`get_view(0)`/`get_view(1)`, so the whole sequence uses only safe public
operations.  After `swap` and one `pop`, the list holds the single value 2
in arena slot 1 while slot 0 is free.  `pop` then reads the end node's
`prev` (`None`), falls back to `ValueRef::new(0)`, and the
`get_mut(ValueRef(0))?` lookup fails on the free slot 0 — so `pop` returns
`None` and changes nothing, although `len() == 1`: the claimed
`NonEmpty(1) → Empty` transition does not happen. -/
theorem pop_fails_on_reachable_singleton :
    c5BaseList.get_view 0 = some 0 ∧
    c5BaseList.get_view 1 = some 1 ∧
    (c5BaseList.swap 0 1).2 = some () ∧
    ((c5BaseList.swap 0 1).1.pop).1 = some 1 ∧
    c5Singleton.len = 1 ∧
    c5Singleton.toList = [2] ∧
    c5Singleton.pop.1 = none ∧
    c5Singleton.pop.2 = c5Singleton := by
  refine ⟨rfl, rfl, rfl, rfl, rfl, rfl, rfl, by decide⟩

/-- One step of the backward walk, written with `Option.bind`. -/
theorem walkPrev_succ {α : Type} (l : DoubleLinkedList α) (n r : Nat) :
    walkPrev l (n + 1) r =
      ((l.store.get r).bind (fun node => node.prev)).bind (walkPrev l n) := by
  cases hg : l.store.get r with
  | none => simp [walkPrev, hg]
  | some node =>
    simp only [walkPrev, hg]
    cases hp : node.prev with
    | none => simp [hp]
    | some p => simp [hp]

/-- One step of the forward walk, written with `Option.bind`. -/
theorem walkNext_succ {α : Type} (l : DoubleLinkedList α) (n r : Nat) :
    walkNext l (n + 1) r =
      ((l.store.get r).bind (fun node => node.next)).bind (walkNext l n) := by
  cases hg : l.store.get r with
  | none => simp [walkNext, hg]
  | some node =>
    simp only [walkNext, hg]
    cases hp : node.next with
    | none => simp [hp]
    | some p => simp [hp]

/-- Backward walk failures are permanent: once `walkPrev` fails within `k`
steps it fails within any `n ≥ k` steps. -/
theorem walkPrev_none_mono {α : Type} (l : DoubleLinkedList α) :
    ∀ (k view : Nat), walkPrev l k view = none →
      ∀ n, k ≤ n → walkPrev l n view = none := by
  intro k
  induction k with
  | zero => intro view h; simp [walkPrev] at h
  | succ m ih =>
    intro view h n hn
    cases n with
    | zero => omega
    | succ n' =>
      rw [walkPrev_succ] at h ⊢
      cases hg : (l.store.get view).bind (fun node => node.prev) with
      | none => rfl
      | some p =>
        rw [hg] at h
        exact ih p h n' (by omega)

/-- Forward walk failures are permanent, symmetrically. -/
theorem walkNext_none_mono {α : Type} (l : DoubleLinkedList α) :
    ∀ (k view : Nat), walkNext l k view = none →
      ∀ n, k ≤ n → walkNext l n view = none := by
  intro k
  induction k with
  | zero => intro view h; simp [walkNext] at h
  | succ m ih =>
    intro view h n hn
    cases n with
    | zero => omega
    | succ n' =>
      rw [walkNext_succ] at h ⊢
      cases hg : (l.store.get view).bind (fun node => node.next) with
      | none => rfl
      | some p =>
        rw [hg] at h
        exact ih p h n' (by omega)

/-- C10. For `n = 0` both neighbour walks return the given view unchanged
without consulting the store at all, so they succeed even on a stale view;
for `n ≥ 1` the result is `None` whenever any prefix of the `n`
link-following steps (`store.get(..)?.prev?` resp. `..next?`) fails. -/
theorem neighbour_walk_zero_and_failure {α : Type} :
    (∀ (l : DoubleLinkedList α) (view : Nat),
      l.get_left_neighbour view 0 = some view ∧
      l.get_right_neighbour view 0 = some view) ∧
    (∀ (l : DoubleLinkedList α) (view n k : Nat), 1 ≤ k → k ≤ n →
      walkPrev l k view = none → l.get_left_neighbour view n = none) ∧
    (∀ (l : DoubleLinkedList α) (view n k : Nat), 1 ≤ k → k ≤ n →
      walkNext l k view = none → l.get_right_neighbour view n = none) := by
  refine ⟨?_, ?_, ?_⟩
  · intro l view
    constructor
    · simp [DoubleLinkedList.get_left_neighbour]
    · simp [DoubleLinkedList.get_right_neighbour]
  · intro l view n k h1 hk hw
    have hn : n ≠ 0 := by omega
    unfold DoubleLinkedList.get_left_neighbour
    rw [if_neg hn]
    exact walkPrev_none_mono l k view hw n hk
  · intro l view n k h1 hk hw
    have hn : n ≠ 0 := by omega
    unfold DoubleLinkedList.get_right_neighbour
    rw [if_neg hn]
    exact walkNext_none_mono l k view hw n hk

/-- Witness for C10: on the empty list the view 5 is stale, the zero-step
walk still succeeds, and a three-step walk fails because already its first
step fails. -/
theorem neighbour_walk_zero_and_failure_witness :
    (DoubleLinkedList.new : DoubleLinkedList Nat).store.get 5 = none ∧
    (DoubleLinkedList.new : DoubleLinkedList Nat).get_left_neighbour 5 0 = some 5 ∧
    ((1 : Nat) ≤ 1 ∧ (1 : Nat) ≤ 3 ∧
      walkPrev (DoubleLinkedList.new : DoubleLinkedList Nat) 1 5 = none) ∧
    (DoubleLinkedList.new : DoubleLinkedList Nat).get_left_neighbour 5 3 = none := by
  refine ⟨by decide, (neighbour_walk_zero_and_failure.1 DoubleLinkedList.new 5).1,
    ⟨by decide, by decide, by decide⟩, ?_⟩
  exact neighbour_walk_zero_and_failure.2.1 DoubleLinkedList.new 5 3 1
    (by decide) (by decide) (by decide)

/-- Embedding of the free function `closest_entry` (`src/linked_list.rs`,
stable-toolchain version).  The `BTreeMap<usize, V>` is modelled as an
association list sorted strictly by key (the only shape the list code ever
builds); `range((Unbounded, Included(key)))` then enumerates the entries
with key ≤ `key` in order and `range((Included(key), Unbounded))` those with
key ≥ `key`, so `next_back`/`next` are the last, respectively first, entry
of the matching filter.  Of the two candidates the nearer one wins, with
ties going to the `after` side. -/
def closest_entry (tree : List (Nat × Nat)) (key : Nat) : Option (Nat × Nat) :=
  let before := tree.filter (fun e => e.1 ≤ key)
  let after := tree.filter (fun e => key ≤ e.1)
  match before.getLast? with
  | some before_last =>
    match after.head? with
    | none => some before_last
    | some after_next =>
      if key - before_last.1 ≥ after_next.1 - key then some after_next
      else some before_last
  | none => after.head?

/-- Embedding of `BTreeMap::insert` on the key-sorted association list:
insert in key position, replacing an existing binding of the same key. -/
def btreeInsert : List (Nat × Nat) → Nat → Nat → List (Nat × Nat)
  | [], k, v => [(k, v)]
  | e :: rest, k, v =>
    if k < e.1 then (k, v) :: e :: rest
    else if k = e.1 then (k, v) :: rest
    else e :: btreeInsert rest k v

/-- Embedding of the anchor re-derivation loop ending each `multi_insert`
iteration: every cached entry whose key lies in `(index + 1)..self.len()` is
re-pointed at `self.store.get(view)?.prev?`; a failing step aborts
`multi_insert` through `?` (the partially updated map is local and dies with
the call). -/
def rederiveRange {α : Type} (p : ValuePool (DoubleLinkedNode α)) :
    List (Nat × Nat) → Nat → Nat → Option (List (Nat × Nat))
  | [], _, _ => some []
  | e :: rest, lo, hi =>
    if lo ≤ e.1 ∧ e.1 < hi then
      match (p.get e.2).bind (fun node => node.prev) with
      | none => none
      | some p1 => (rederiveRange p rest lo hi).map (fun r => (e.1, p1) :: r)
    else (rederiveRange p rest lo hi).map (fun r => e :: r)

/-- Loop of `DoubleLinkedList::multi_insert` over the remaining
`(position, value)` pairs, carrying the anchor map `store_index_views`.
Out-of-range positions are skipped (`continue`); any failing `?` aborts with
`None`, keeping the list mutations already made. -/
def multiInsertLoop {α : Type} (l : DoubleLinkedList α)
    (store_index_views : List (Nat × Nat)) :
    List (Nat × α) → DoubleLinkedList α × Option Unit
  | [] => (l, some ())
  | (index, value) :: rest =>
    if l.len ≤ index then multiInsertLoop l store_index_views rest
    else
      match closest_entry store_index_views index with
      | none => (l, none)
      | some closest =>
        let true_view? :=
          if index ≤ closest.1 then
            l.get_left_neighbour closest.2 (closest.1 - index)
          else l.get_right_neighbour closest.2 (index - closest.1)
        match true_view? with
        | none => (l, none)
        | some true_view =>
          match l.insert_left true_view value with
          | none => (l, none)
          | some res =>
            match rederiveRange res.1.store
                (btreeInsert store_index_views index res.2) (index + 1) res.1.len with
            | none => (res.1, none)
            | some m2 => multiInsertLoop res.1 m2 rest

/-- Embedding of `DoubleLinkedList::multi_insert`: seed the anchor map with
`0 ↦ start` and `self.len() - 1 ↦ end` (`len - 1` is `usize` arithmetic; on
the empty list the second insert overwrites the first and the map is never
consulted because every position is skipped), then run the loop. -/
def DoubleLinkedList.multi_insert {α : Type} (l : DoubleLinkedList α)
    (pairs : List (Nat × α)) : DoubleLinkedList α × Option Unit :=
  multiInsertLoop l
    (btreeInsert (btreeInsert [] 0 l.start) (l.len - 1) l.endRef) pairs

/-- Iterated `insert`, the reference side of C2's equivalence: one
`insert(position, value)` call per pair, in order. -/
def DoubleLinkedList.insertAll {α : Type} (l : DoubleLinkedList α)
    (pairs : List (Nat × α)) : DoubleLinkedList α :=
  pairs.foldl (fun acc e => (acc.insert e.1 e.2).1) l

/-- Representation invariant of a well-formed doubly linked list: `ch` lists
the arena references of the nodes in list order.  It fixes the length, the
`start`/`end` fields, distinctness of the references, and each node's links:
`prev` of the `i`-th node is the `(i-1)`-th reference (`none` at the head)
and `next` is the `(i+1)`-th reference (`none` at the tail); the backing
pool is well-formed.  Every list reachable without the `multi_push_front`
link bug satisfies it for the chain of its nodes. -/
def ChainInv {α : Type} (l : DoubleLinkedList α) (ch : List Nat) : Prop :=
  PoolWF l.store ∧
  ch.length = l.len ∧
  (ch = [] ∨ (ch.head? = some l.start ∧ ch.getLast? = some l.endRef)) ∧
  ch.Nodup ∧
  ∀ i : Fin ch.length,
    ((l.store.get (ch.get i)).map (fun n => n.prev) =
      some (if i.1 = 0 then none else ch[i.1 - 1]?)) ∧
    ((l.store.get (ch.get i)).map (fun n => n.next) = some ch[i.1 + 1]?)

instance {α : Type} [DecidableEq α] (l : DoubleLinkedList α) (ch : List Nat) :
    Decidable (ChainInv l ch) := by
  unfold ChainInv; infer_instance

/-- Link facts of the chain invariant, read through `getElem?`. -/
theorem ChainInv.node {α : Type} {l : DoubleLinkedList α} {ch : List Nat}
    (h : ChainInv l ch) {i r : Nat} (hr : ch[i]? = some r) :
    ∃ node, l.store.get r = some node ∧
      node.prev = (if i = 0 then none else ch[i - 1]?) ∧
      node.next = ch[i + 1]? := by
  obtain ⟨hi, hget⟩ := List.getElem?_eq_some_iff.mp hr
  have hlink := h.2.2.2.2 ⟨i, hi⟩
  rw [List.get_eq_getElem] at hlink
  simp only [hget] at hlink
  obtain ⟨node, hnode, hprev⟩ := Option.map_eq_some'.mp hlink.1
  obtain ⟨node2, hnode2, hnext⟩ := Option.map_eq_some'.mp hlink.2
  rw [hnode] at hnode2
  obtain rfl : node = node2 := Option.some_inj.mp hnode2
  exact ⟨node, hnode, hprev, hnext⟩

/-- Every chain member is an occupied slot. -/
theorem ChainInv.mem_occupied {α : Type} {l : DoubleLinkedList α} {ch : List Nat}
    (h : ChainInv l ch) {r : Nat} (hr : r ∈ ch) : (l.store.get r).isSome := by
  obtain ⟨i, hi⟩ := List.getElem?_of_mem hr
  obtain ⟨node, hnode, -, -⟩ := h.node hi
  rw [hnode]; rfl

/-- Distinct chain positions carry distinct references. -/
theorem nodup_getElem?_ne {β : Type} {l : List β} (h : l.Nodup) {i j : Nat}
    {x y : β} (hi : l[i]? = some x) (hj : l[j]? = some y) (hij : i ≠ j) :
    x ≠ y := by
  obtain ⟨hi', hx⟩ := List.getElem?_eq_some_iff.mp hi
  obtain ⟨hj', hy⟩ := List.getElem?_eq_some_iff.mp hj
  intro hxy
  apply hij
  rw [← hx, ← hy] at hxy
  exact (List.Nodup.getElem_inj_iff h).mp hxy

/-- List helper: `insertIdx` leaves positions below the insertion point. -/
theorem List.getElem?_insertIdx_lt {β : Type} (x : β) :
    ∀ (i : Nat) (l : List β) (j : Nat), j < i →
      (l.insertIdx i x)[j]? = l[j]? := by
  intro i
  induction i with
  | zero => intro l j hj; omega
  | succ m ih =>
    intro l j hj
    cases l with
    | nil => simp [List.insertIdx_succ_nil]
    | cons a as =>
      rw [List.insertIdx_succ_cons]
      cases j with
      | zero => simp
      | succ j2 =>
        simp only [List.getElem?_cons_succ]
        exact ih as j2 (by omega)

/-- List helper: `insertIdx` puts the new element at the insertion point. -/
theorem List.getElem?_insertIdx_self {β : Type} (x : β) :
    ∀ (i : Nat) (l : List β), i ≤ l.length →
      (l.insertIdx i x)[i]? = some x := by
  intro i
  induction i with
  | zero => intro l _; simp [List.insertIdx_zero]
  | succ m ih =>
    intro l hlen
    cases l with
    | nil => simp at hlen
    | cons a as =>
      rw [List.insertIdx_succ_cons]
      simp only [List.getElem?_cons_succ]
      exact ih as (by simpa using hlen)

/-- List helper: `insertIdx` shifts positions above the insertion point. -/
theorem List.getElem?_insertIdx_gt {β : Type} (x : β) :
    ∀ (i : Nat) (l : List β) (j : Nat), i < j →
      (l.insertIdx i x)[j]? = l[j - 1]? := by
  intro i
  induction i with
  | zero =>
    intro l j hj
    cases j with
    | zero => omega
    | succ j2 => simp [List.insertIdx_zero]
  | succ m ih =>
    intro l j hj
    cases l with
    | nil =>
      rw [List.insertIdx_succ_nil]
      simp
    | cons a as =>
      rw [List.insertIdx_succ_cons]
      cases j with
      | zero => omega
      | succ j2 =>
        simp only [List.getElem?_cons_succ]
        rw [ih as j2 (by omega)]
        cases j2 with
        | zero => omega
        | succ j3 => simp only [Nat.add_sub_cancel, List.getElem?_cons_succ]

/-- Walking `d` `prev` links from the chain's `i`-th node lands on its
`(i - d)`-th node. -/
theorem chain_walkPrev {α : Type} {l : DoubleLinkedList α} {ch : List Nat}
    (h : ChainInv l ch) :
    ∀ (d i r : Nat), ch[i]? = some r → d ≤ i →
      walkPrev l d r = ch[i - d]? := by
  intro d
  induction d with
  | zero =>
    intro i r hr _
    simp only [Nat.sub_zero, hr]
    rfl
  | succ m ih =>
    intro i r hr hd
    obtain ⟨node, hnode, hprev, -⟩ := h.node hr
    have hi0 : i ≠ 0 := by omega
    rw [if_neg hi0] at hprev
    have hi : i < ch.length := (List.getElem?_eq_some_iff.mp hr).1
    have hi1 : i - 1 < ch.length := by omega
    have hr2 : ch[i - 1]? = some (ch.get ⟨i - 1, hi1⟩) := by
      rw [List.getElem?_eq_getElem hi1, List.get_eq_getElem]
    have hstep : ((l.store.get r).bind (fun node => node.prev)) = ch[i - 1]? := by
      rw [hnode]
      simpa using hprev
    rw [walkPrev_succ, hstep, hr2]
    have hres := ih (i - 1) (ch.get ⟨i - 1, hi1⟩) hr2 (by omega)
    have heq : i - 1 - m = i - (m + 1) := by omega
    rw [heq] at hres
    exact hres

/-- Walking `d` `next` links from the chain's `i`-th node lands on its
`(i + d)`-th node. -/
theorem chain_walkNext {α : Type} {l : DoubleLinkedList α} {ch : List Nat}
    (h : ChainInv l ch) :
    ∀ (d i r : Nat), ch[i]? = some r → i + d < ch.length →
      walkNext l d r = ch[i + d]? := by
  intro d
  induction d with
  | zero =>
    intro i r hr _
    simp only [Nat.add_zero, hr]
    rfl
  | succ m ih =>
    intro i r hr hd
    obtain ⟨node, hnode, -, hnext⟩ := h.node hr
    have hi1 : i + 1 < ch.length := by omega
    have hr2 : ch[i + 1]? = some (ch.get ⟨i + 1, hi1⟩) := by
      rw [List.getElem?_eq_getElem hi1, List.get_eq_getElem]
    have hstep : ((l.store.get r).bind (fun node => node.next)) = ch[i + 1]? := by
      rw [hnode]
      simpa using hnext
    rw [walkNext_succ, hstep, hr2]
    have hres := ih (i + 1) (ch.get ⟨i + 1, hi1⟩) hr2 (by omega)
    have heq : i + 1 + m = i + (m + 1) := by omega
    rw [heq] at hres
    exact hres

/-- On a well-formed list, position translation returns exactly the chain's
entry at the requested position. -/
theorem chain_index_to_valueref {α : Type} {l : DoubleLinkedList α}
    {ch : List Nat} (h : ChainInv l ch) (k : Nat) (hk : k < l.len) :
    l.index_to_valueref k = ch[k]? := by
  have hlen : ch.length = l.len := h.2.1
  have hne : ch ≠ [] := by
    intro he
    rw [he] at hlen
    simp at hlen
    omega
  obtain ⟨hhead, hlast⟩ := h.2.2.1.resolve_left hne
  have hlast2 : ch[l.len - 1]? = some l.endRef := by
    rw [List.getLast?_eq_getElem?, hlen] at hlast
    exact hlast
  have hhead2 : ch[0]? = some l.start := by
    rw [List.head?_eq_getElem?] at hhead
    exact hhead
  unfold DoubleLinkedList.index_to_valueref
  rw [if_neg (by omega)]
  by_cases hk1 : k = l.len - 1
  · rw [if_pos hk1, hk1]
    exact hlast2.symm
  · rw [if_neg hk1]
    by_cases hk0 : k = 0
    · rw [if_pos hk0, hk0]
      exact hhead2.symm
    · rw [if_neg hk0]
      by_cases hhalf : l.len / 2 < k
      · rw [if_pos hhalf]
        have hw := chain_walkPrev h (l.len - 1 - k) (l.len - 1) l.endRef hlast2
          (by omega)
        have heq : l.len - 1 - (l.len - 1 - k) = k := by omega
        rw [heq] at hw
        exact hw
      · rw [if_neg hhalf]
        have hw := chain_walkNext h k 0 l.start hhead2 (by omega)
        simpa using hw

/-- Every free-list entry of a well-formed pool is in range. -/
theorem PoolWF.open_lt {α : Type} {p : ValuePool α} (h : PoolWF p) :
    ∀ i ∈ p.openIndices, i < p.store.length := by
  intro i hi
  exact (List.getElem?_eq_some_iff.mp (h.2.1 i hi)).1

/-- Full description of `push` on a well-formed pool: the result is
well-formed, the count grows by one, the returned slot was free and now
holds the pushed value, and every other slot is untouched. -/
theorem push_spec {α : Type} (p : ValuePool α) (x : α) (hwf : PoolWF p) :
    PoolWF (p.push x).1 ∧
    (p.push x).1.element_count = p.element_count + 1 ∧
    (p.push x).1.get (p.push x).2 = some x ∧
    p.get (p.push x).2 = none ∧
    (∀ s, s ≠ (p.push x).2 → (p.push x).1.get s = p.get s) := by
  refine ⟨(push_wf_count p x hwf).1, (push_wf_count p x hwf).2,
    push_get_roundtrip p x hwf.open_lt, ?_, ?_⟩
  · cases hl : p.openIndices.getLast? with
    | none =>
      have hpush : p.push x = (⟨p.store ++ [some x], p.openIndices⟩, p.store.length) := by
        unfold ValuePool.push
        rw [hl]
      rw [hpush]
      unfold ValuePool.get
      rw [List.getElem?_eq_none (Nat.le_refl _)]
      rfl
    | some i =>
      have hpush : p.push x =
          (⟨p.store.set i (some x), p.openIndices.dropLast⟩, i) := by
        unfold ValuePool.push
        rw [hl]
      rw [hpush]
      unfold ValuePool.get
      rw [hwf.2.1 i (List.mem_of_getLast?_eq_some hl)]
      rfl
  · intro s hs
    cases hl : p.openIndices.getLast? with
    | none =>
      have hpush : p.push x = (⟨p.store ++ [some x], p.openIndices⟩, p.store.length) := by
        unfold ValuePool.push
        rw [hl]
      rw [hpush] at hs ⊢
      unfold ValuePool.get
      by_cases hlt : s < p.store.length
      · rw [List.getElem?_append_left hlt]
      · have hgt : p.store.length + 1 ≤ s := by
          simp only at hs
          omega
        rw [List.getElem?_eq_none (by simpa using hgt),
          List.getElem?_eq_none (by omega)]
    | some i =>
      have hpush : p.push x =
          (⟨p.store.set i (some x), p.openIndices.dropLast⟩, i) := by
        unfold ValuePool.push
        rw [hl]
      rw [hpush] at hs ⊢
      simp only at hs
      unfold ValuePool.get
      rw [List.getElem?_set_ne (fun h => hs h.symm)]

/-- Full description of `modifyItem` on an occupied slot: the slot is
rewritten, everything else (other slots, the free list, the count,
well-formedness) is untouched. -/
theorem modifyItem_spec {α : Type} (p : ValuePool α) (r : Nat) (f : α → α)
    {v : α} (hv : p.get r = some v) :
    (p.modifyItem r f).get r = some (f v) ∧
    (∀ s, s ≠ r → (p.modifyItem r f).get s = p.get s) ∧
    (p.modifyItem r f).element_count = p.element_count ∧
    (PoolWF p → PoolWF (p.modifyItem r f)) := by
  have hslot : p.store[r]? = some (some v) := ValuePool.get_eq_some.mp hv
  have hr : r < p.store.length := (List.getElem?_eq_some_iff.mp hslot).1
  have hmod : p.modifyItem r f = ⟨p.store.set r (some (f v)), p.openIndices⟩ := by
    unfold ValuePool.modifyItem
    rw [hv]
  rw [hmod]
  refine ⟨?_, ?_, ?_, ?_⟩
  · unfold ValuePool.get
    rw [List.getElem?_set_self (by simpa using hr)]
    rfl
  · intro s hs
    unfold ValuePool.get
    rw [List.getElem?_set_ne (fun h => hs h.symm)]
  · unfold ValuePool.element_count
    simp
  · intro hwf
    obtain ⟨hnd, hmem, hcnt⟩ := hwf
    refine ⟨hnd, ?_, ?_⟩
    · intro i hi
      have hislot := hmem i hi
      have hir : i ≠ r := by
        intro he
        rw [he, hslot] at hislot
        simp at hislot
      rw [List.getElem?_set_ne (fun h => hir h.symm)]
      exact hislot
    · have h2 : (p.store.set r (some (f v))).countP (fun o => o.isNone) + 0 =
          p.store.countP (fun o => o.isNone) + 0 :=
        List.countP_set_known (fun o => o.isNone) p.store r (some (f v)) (some v) hslot
      simpa using (h2.trans (congrArg (· + 0) hcnt))

/-- Assemble the chain invariant from `getElem?`-indexed link facts. -/
theorem ChainInv.of_getElem? {α : Type} {l2 : DoubleLinkedList α}
    {ch2 : List Nat}
    (hwf : PoolWF l2.store)
    (hlen : ch2.length = l2.len)
    (hse : ch2 = [] ∨ (ch2.head? = some l2.start ∧ ch2.getLast? = some l2.endRef))
    (hnd : ch2.Nodup)
    (hlink : ∀ j r, ch2[j]? = some r →
      ((l2.store.get r).map (fun n => n.prev) =
        some (if j = 0 then none else ch2[j - 1]?)) ∧
      ((l2.store.get r).map (fun n => n.next) = some ch2[j + 1]?)) :
    ChainInv l2 ch2 := by
  refine ⟨hwf, hlen, hse, hnd, ?_⟩
  intro j
  have hj : ch2[j.1]? = some (ch2.get j) := by
    rw [List.getElem?_eq_getElem j.2, List.get_eq_getElem]
  exact hlink j.1 (ch2.get j) hj

/-- Link facts of the chain invariant in `Option.map` form. -/
theorem ChainInv.link {α : Type} {l : DoubleLinkedList α} {ch : List Nat}
    (h : ChainInv l ch) {j r : Nat} (hr : ch[j]? = some r) :
    ((l.store.get r).map (fun n => n.prev) =
      some (if j = 0 then none else ch[j - 1]?)) ∧
    ((l.store.get r).map (fun n => n.next) = some ch[j + 1]?) := by
  obtain ⟨node, hnode, hp, hn⟩ := h.node hr
  rw [hnode]
  exact ⟨by simp [hp], by simp [hn]⟩

/-- Splicing a fresh node `nr` in front of the chain's `i`-th node preserves
the chain invariant for the chain with `nr` inserted at position `i`.  The
hypotheses `hG1`–`hG4` describe the new store pointwise: the fresh node's
links, the viewed node's updated `prev`, the left neighbour's updated `next`
and the untouchedness of every other slot — exactly what `insert_left`
establishes. -/
theorem chainInv_after_insert {α : Type} {l : DoubleLinkedList α}
    {ch : List Nat} (h : ChainInv l ch) {i view nr : Nat}
    (hv : ch[i]? = some view) (hfresh : nr ∉ ch)
    {l2 : DoubleLinkedList α} (value : α)
    (hwf2 : PoolWF l2.store)
    (hlen2 : l2.len = l.len + 1)
    (hstart : l2.start = (if i = 0 then nr else l.start))
    (hend : l2.endRef = l.endRef)
    (hG1 : l2.store.get nr =
      some ⟨value, if i = 0 then none else ch[i - 1]?, some view⟩)
    (hG2p : (l2.store.get view).map (fun n => n.prev) = some (some nr))
    (hG2n : (l2.store.get view).map (fun n => n.next) = some ch[i + 1]?)
    (hG3 : ∀ left2, i ≠ 0 → ch[i - 1]? = some left2 →
      ((l2.store.get left2).map (fun n => n.prev) =
        some (if i - 1 = 0 then none else ch[i - 1 - 1]?)) ∧
      ((l2.store.get left2).map (fun n => n.next) = some (some nr)))
    (hG4 : ∀ s, s ≠ nr → s ≠ view →
      (∀ left2, i ≠ 0 → ch[i - 1]? = some left2 → s ≠ left2) →
      l2.store.get s = l.store.get s) :
    ChainInv l2 (ch.insertIdx i nr) := by
  have hi : i < ch.length := (List.getElem?_eq_some_iff.mp hv).1
  have hile : i ≤ ch.length := Nat.le_of_lt hi
  have hne : ch ≠ [] := by
    intro he
    rw [he] at hi
    simp at hi
  have hlen' : (ch.insertIdx i nr).length = ch.length + 1 :=
    List.length_insertIdx i ch hile
  refine ChainInv.of_getElem? hwf2 ?_ ?_ ?_ ?_
  · rw [hlen', hlen2, h.2.1]
  · right
    constructor
    · rw [List.head?_eq_getElem?]
      by_cases hi0 : i = 0
      · subst hi0
        rw [List.getElem?_insertIdx_self nr 0 ch (by omega), hstart]
        rfl
      · rw [List.getElem?_insertIdx_lt nr i ch 0 (by omega)]
        obtain ⟨hh, -⟩ := h.2.2.1.resolve_left hne
        rw [← List.head?_eq_getElem?, hh, hstart, if_neg hi0]
    · rw [List.getLast?_eq_getElem?, hlen']
      simp only [Nat.add_sub_cancel]
      rw [List.getElem?_insertIdx_gt nr i ch ch.length hi]
      obtain ⟨-, hl⟩ := h.2.2.1.resolve_left hne
      rw [← List.getLast?_eq_getElem?, hl, hend]
  · have hperm := List.perm_insertIdx nr ch hile
    rw [hperm.nodup_iff]
    exact List.nodup_cons.mpr ⟨hfresh, h.2.2.2.1⟩
  · intro j r hr
    have hjlt : j < ch.length + 1 := by
      have := (List.getElem?_eq_some_iff.mp hr).1
      rw [hlen'] at this
      exact this
    by_cases hji : j < i
    · have hr' : ch[j]? = some r := by
        rw [← List.getElem?_insertIdx_lt nr i ch j hji]
        exact hr
      by_cases hjl : j = i - 1
      · have hi0 : i ≠ 0 := by omega
        have hG3' := hG3 r hi0 (by rw [← hjl]; exact hr')
        subst hjl
        constructor
        · rw [hG3'.1]
          by_cases h0 : i - 1 = 0
          · rw [if_pos h0, if_pos h0]
          · rw [if_neg h0, if_neg h0,
              List.getElem?_insertIdx_lt nr i ch (i - 1 - 1) (by omega)]
        · rw [hG3'.2]
          have he1 : i - 1 + 1 = i := by omega
          rw [he1, List.getElem?_insertIdx_self nr i ch hile]
      · have hi0 : i ≠ 0 := by omega
        have hrne_view : r ≠ view := nodup_getElem?_ne h.2.2.2.1 hr' hv (by omega)
        have hrne_nr : r ≠ nr := fun he => hfresh (he ▸ List.getElem?_mem hr')
        have hlf : ∀ left2, i ≠ 0 → ch[i - 1]? = some left2 → r ≠ left2 := by
          intro left2 _ hleft2
          exact nodup_getElem?_ne h.2.2.2.1 hr' hleft2 (by omega)
        have hlink := h.link hr'
        rw [hG4 r hrne_nr hrne_view hlf]
        constructor
        · rw [hlink.1]
          by_cases h0 : j = 0
          · rw [if_pos h0, if_pos h0]
          · rw [if_neg h0, if_neg h0,
              List.getElem?_insertIdx_lt nr i ch (j - 1) (by omega)]
        · rw [hlink.2, List.getElem?_insertIdx_lt nr i ch (j + 1) (by omega)]
    · by_cases hji2 : j = i
      · subst hji2
        have hrnr : r = nr := by
          rw [List.getElem?_insertIdx_self nr j ch hile] at hr
          exact (Option.some_inj.mp hr).symm
        rw [hrnr, hG1]
        constructor
        · simp only [Option.map_some']
          by_cases h0 : j = 0
          · rw [if_pos h0, if_pos h0]
          · rw [if_neg h0, if_neg h0,
              List.getElem?_insertIdx_lt nr j ch (j - 1) (by omega)]
        · simp only [Option.map_some']
          rw [List.getElem?_insertIdx_gt nr j ch (j + 1) (by omega)]
          simp only [Nat.add_sub_cancel]
          rw [hv]
      · have hjgt : i < j := by omega
        have hr' : ch[j - 1]? = some r := by
          rw [← List.getElem?_insertIdx_gt nr i ch j hjgt]
          exact hr
        by_cases hj1 : j = i + 1
        · have hrv : r = view := by
            rw [hj1] at hr'
            simp only [Nat.add_sub_cancel] at hr'
            rw [hv] at hr'
            exact (Option.some_inj.mp hr').symm
          subst hrv
          constructor
          · rw [hG2p, if_neg (by omega), hj1]
            simp only [Nat.add_sub_cancel]
            rw [List.getElem?_insertIdx_self nr i ch hile]
          · rw [hG2n, hj1, List.getElem?_insertIdx_gt nr i ch (i + 1 + 1) (by omega)]
            simp only [Nat.add_sub_cancel]
        · have hj2 : i + 1 < j := by omega
          have hrne_view : r ≠ view := nodup_getElem?_ne h.2.2.2.1 hr' hv (by omega)
          have hrne_nr : r ≠ nr := fun he => hfresh (he ▸ List.getElem?_mem hr')
          have hlf : ∀ left2, i ≠ 0 → ch[i - 1]? = some left2 → r ≠ left2 := by
            intro left2 hi0 hleft2
            exact nodup_getElem?_ne h.2.2.2.1 hr' hleft2 (by omega)
          have hlink := h.link hr'
          rw [hG4 r hrne_nr hrne_view hlf]
          constructor
          · rw [hlink.1, if_neg (by omega), if_neg (by omega),
              List.getElem?_insertIdx_gt nr i ch (j - 1) (by omega)]
          · rw [hlink.2, List.getElem?_insertIdx_gt nr i ch (j + 1) (by omega)]
            have he1 : j - 1 + 1 = j := by omega
            have he2 : j + 1 - 1 = j := by omega
            rw [he1, he2]

/-- Effect of `insert_left` at the chain's `i`-th node on a well-formed
list: it succeeds, the fresh node lands at chain position `i`, the length
grows by one and `end` is untouched. -/
theorem insert_left_spec {α : Type} {l : DoubleLinkedList α} {ch : List Nat}
    (h : ChainInv l ch) {i view : Nat} (hv : ch[i]? = some view) (value : α) :
    ∃ l2 nr, l.insert_left view value = some (l2, nr) ∧
      ChainInv l2 (ch.insertIdx i nr) ∧
      l2.len = l.len + 1 ∧
      l2.endRef = l.endRef := by
  obtain ⟨node, hnode, hprev, hnext⟩ := h.node hv
  have hwf := h.1
  have hi : i < ch.length := (List.getElem?_eq_some_iff.mp hv).1
  by_cases hi0 : i = 0
  · rw [if_pos hi0] at hprev
    have hcomp : l.insert_left view value =
        some (⟨((l.store.push ⟨value, none, some view⟩).1).modifyItem view
            (fun n => { n with prev := some (l.store.push ⟨value, none, some view⟩).2 }),
          (l.store.push ⟨value, none, some view⟩).2, l.endRef⟩,
          (l.store.push ⟨value, none, some view⟩).2) := by
      unfold DoubleLinkedList.insert_left
      rw [hnode]
      simp only [hprev]
    obtain ⟨hwf1, hcount1, hgetnew, hfreshslot, hpres1⟩ :=
      push_spec l.store ⟨value, none, some view⟩ hwf
    set nr := (l.store.push ⟨value, none, some view⟩).2 with hnr
    set P1 := (l.store.push ⟨value, none, some view⟩).1 with hP1
    have hfresh : nr ∉ ch := by
      intro hmem
      have hocc := h.mem_occupied hmem
      rw [hfreshslot] at hocc
      simp at hocc
    have hvne : view ≠ nr := by
      intro he
      rw [he, hfreshslot] at hnode
      cases hnode
    have hview1 : P1.get view = some node := by
      rw [hpres1 view hvne, hnode]
    obtain ⟨hm1, hm2, hm4, hm5⟩ :=
      modifyItem_spec P1 view (fun n => { n with prev := some nr }) hview1
    refine ⟨_, _, hcomp, ?_, ?_, rfl⟩
    · refine chainInv_after_insert h hv hfresh value (hm5 hwf1) ?_ ?_ rfl ?_ ?_ ?_ ?_ ?_
      · show (P1.modifyItem view (fun n => { n with prev := some nr })).element_count
          = l.store.element_count + 1
        rw [hm4, hcount1]
      · show nr = if i = 0 then nr else l.start
        rw [if_pos hi0]
      · show (P1.modifyItem view (fun n => { n with prev := some nr })).get nr =
          some ⟨value, if i = 0 then none else ch[i - 1]?, some view⟩
        rw [hm2 nr (fun he => hvne he.symm), hgetnew, if_pos hi0]
      · show ((P1.modifyItem view (fun n => { n with prev := some nr })).get view).map
            (fun n => n.prev) = some (some nr)
        rw [hm1]
        rfl
      · show ((P1.modifyItem view (fun n => { n with prev := some nr })).get view).map
            (fun n => n.next) = some ch[i + 1]?
        rw [hm1]
        simp only [Option.map_some']
        rw [hnext]
      · intro left2 hne0 _
        exact absurd hi0 hne0
      · intro s hsnr hsview _
        rw [hm2 s hsview, hpres1 s hsnr]
    · show (P1.modifyItem view (fun n => { n with prev := some nr })).element_count
        = l.store.element_count + 1
      rw [hm4, hcount1]
  · rw [if_neg hi0] at hprev
    have hi1 : i - 1 < ch.length := by omega
    have hleft : ch[i - 1]? = some (ch.get ⟨i - 1, hi1⟩) := by
      rw [List.getElem?_eq_getElem hi1, List.get_eq_getElem]
    set left := ch.get ⟨i - 1, hi1⟩ with hleftdef
    rw [hleft] at hprev
    obtain ⟨nodeL, hnodeL, hprevL, hnextL⟩ := h.node hleft
    have hcomp : l.insert_left view value =
        some (⟨(((l.store.push ⟨value, some left, some view⟩).1).modifyItem left
              (fun n => { n with next := some (l.store.push ⟨value, some left, some view⟩).2 })).modifyItem
            view
            (fun n => { n with prev := some (l.store.push ⟨value, some left, some view⟩).2 }),
          l.start, l.endRef⟩,
          (l.store.push ⟨value, some left, some view⟩).2) := by
      unfold DoubleLinkedList.insert_left
      rw [hnode]
      simp only [hprev]
    obtain ⟨hwf1, hcount1, hgetnew, hfreshslot, hpres1⟩ :=
      push_spec l.store ⟨value, some left, some view⟩ hwf
    set nr := (l.store.push ⟨value, some left, some view⟩).2 with hnr
    set P1 := (l.store.push ⟨value, some left, some view⟩).1 with hP1
    have hfresh : nr ∉ ch := by
      intro hmem
      have hocc := h.mem_occupied hmem
      rw [hfreshslot] at hocc
      simp at hocc
    have hvne : view ≠ nr := by
      intro he
      rw [he, hfreshslot] at hnode
      cases hnode
    have hlne : left ≠ nr := by
      intro he
      rw [he, hfreshslot] at hnodeL
      cases hnodeL
    have hlv : left ≠ view := nodup_getElem?_ne h.2.2.2.1 hleft hv (by omega)
    have hleft1 : P1.get left = some nodeL := by
      rw [hpres1 left hlne, hnodeL]
    obtain ⟨hmL1, hmL2, hmL4, hmL5⟩ :=
      modifyItem_spec P1 left (fun n => { n with next := some nr }) hleft1
    set P2 := P1.modifyItem left (fun n => { n with next := some nr }) with hP2
    have hview2 : P2.get view = some node := by
      rw [hmL2 view (fun he => hlv he.symm), hpres1 view hvne, hnode]
    obtain ⟨hmV1, hmV2, hmV4, hmV5⟩ :=
      modifyItem_spec P2 view (fun n => { n with prev := some nr }) hview2
    refine ⟨_, _, hcomp, ?_, ?_, rfl⟩
    · refine chainInv_after_insert h hv hfresh value (hmV5 (hmL5 hwf1)) ?_ ?_ rfl ?_ ?_ ?_ ?_ ?_
      · show (P2.modifyItem view (fun n => { n with prev := some nr })).element_count
          = l.store.element_count + 1
        rw [hmV4, hmL4, hcount1]
      · show l.start = if i = 0 then nr else l.start
        rw [if_neg hi0]
      · show (P2.modifyItem view (fun n => { n with prev := some nr })).get nr =
          some ⟨value, if i = 0 then none else ch[i - 1]?, some view⟩
        rw [hmV2 nr (fun he => hvne he.symm), hmL2 nr (fun he => hlne he.symm),
          hgetnew, if_neg hi0, hleft]
      · show ((P2.modifyItem view (fun n => { n with prev := some nr })).get view).map
            (fun n => n.prev) = some (some nr)
        rw [hmV1]
        rfl
      · show ((P2.modifyItem view (fun n => { n with prev := some nr })).get view).map
            (fun n => n.next) = some ch[i + 1]?
        rw [hmV1]
        simp only [Option.map_some']
        rw [hnext]
      · intro left2 _ hleft2
        have hl2 : left2 = left := by
          rw [hleft] at hleft2
          exact Option.some_inj.mp hleft2.symm
        subst hl2
        constructor
        · rw [hmV2 left (fun he => hlv he), hmL1]
          simp only [Option.map_some']
          rw [hprevL]
        · rw [hmV2 left (fun he => hlv he), hmL1]
          rfl
      · intro s hsnr hsview hsleft
        rw [hmV2 s hsview, hmL2 s (hsleft left hi0 hleft), hpres1 s hsnr]
    · show (P2.modifyItem view (fun n => { n with prev := some nr })).element_count
        = l.store.element_count + 1
      rw [hmV4, hmL4, hcount1]

/-- Out-of-range `insert` is a no-op returning `none`. -/
theorem insert_oob {α : Type} (l : DoubleLinkedList α) (index : Nat)
    (value : α) (hk : l.len ≤ index) : l.insert index value = (l, none) := by
  unfold DoubleLinkedList.insert DoubleLinkedList.index_to_valueref
  rw [if_pos hk]

/-- In-range `insert` is exactly `insert_left` at the translated view. -/
theorem insert_eq_insert_left {α : Type} {l : DoubleLinkedList α}
    {ch : List Nat} (h : ChainInv l ch) {index : Nat} (hk : index < l.len)
    {view : Nat} (hview : ch[index]? = some view) (value : α) :
    l.insert index value =
      match l.insert_left view value with
      | none => (l, none)
      | some res => (res.1, some res.2) := by
  unfold DoubleLinkedList.insert
  rw [chain_index_to_valueref h index hk, hview]

/-- Head membership. -/
theorem mem_of_head?_eq_some {β : Type} {l : List β} {a : β}
    (h : l.head? = some a) : a ∈ l := by
  cases l with
  | nil => cases h
  | cons x xs =>
    simp only [List.head?_cons, Option.some.injEq] at h
    rw [← h]
    exact List.mem_cons_self x xs

/-- `closest_entry` only ever returns an entry of the map. -/
theorem closest_entry_mem {m : List (Nat × Nat)} {key : Nat} {e : Nat × Nat}
    (h : closest_entry m key = some e) : e ∈ m := by
  simp only [closest_entry] at h
  split at h
  · rename_i before_last hb
    split at h
    · injection h with h2
      subst h2
      exact (List.mem_filter.mp (List.mem_of_getLast?_eq_some hb)).1
    · rename_i after_next ha
      split at h
      · injection h with h2
        subst h2
        exact (List.mem_filter.mp (mem_of_head?_eq_some ha)).1
      · injection h with h2
        subst h2
        exact (List.mem_filter.mp (List.mem_of_getLast?_eq_some hb)).1
  · exact (List.mem_filter.mp (mem_of_head?_eq_some h)).1

/-- On a non-empty map `closest_entry` always finds an entry. -/
theorem closest_entry_isSome (m : List (Nat × Nat)) (key : Nat)
    (hne : m ≠ []) : (closest_entry m key).isSome := by
  simp only [closest_entry]
  split
  · split
    · rfl
    · split <;> rfl
  · rename_i hb
    have hempty : ∀ e ∈ m, ¬ (e.1 ≤ key) := by
      intro e he hle
      have hmem2 : e ∈ m.filter (fun e => e.1 ≤ key) := by
        rw [List.mem_filter]
        exact ⟨he, by simpa using hle⟩
      rw [List.getLast?_eq_none_iff.mp hb] at hmem2
      cases hmem2
    cases m with
    | nil => exact absurd rfl hne
    | cons f rest =>
      have hf : key ≤ f.1 := by
        have := hempty f (List.mem_cons_self f rest)
        omega
      have hmem : f ∈ (f :: rest).filter (fun e => key ≤ e.1) := by
        rw [List.mem_filter]
        exact ⟨List.mem_cons_self f rest, by simpa using hf⟩
      exact List.head?_isSome.mpr (List.ne_nil_of_mem hmem)

/-- `btreeInsert` never returns the empty map. -/
theorem btreeInsert_ne_nil (m : List (Nat × Nat)) (k v : Nat) :
    btreeInsert m k v ≠ [] := by
  cases m with
  | nil => simp [btreeInsert]
  | cons f rest =>
    unfold btreeInsert
    split
    · simp
    · split <;> simp

/-- Entries of `btreeInsert` are the new binding or old entries. -/
theorem btreeInsert_mem {m : List (Nat × Nat)} {k v : Nat} {e : Nat × Nat} :
    e ∈ btreeInsert m k v → e = (k, v) ∨ e ∈ m := by
  induction m with
  | nil => intro h; simp [btreeInsert] at h; exact Or.inl h
  | cons f rest ih =>
    intro h
    unfold btreeInsert at h
    split at h
    · rcases List.mem_cons.mp h with h2 | h2
      · exact Or.inl h2
      · exact Or.inr h2
    · split at h
      · rcases List.mem_cons.mp h with h2 | h2
        · exact Or.inl h2
        · exact Or.inr (List.mem_cons_of_mem f h2)
      · rcases List.mem_cons.mp h with h2 | h2
        · exact Or.inr (h2 ▸ List.mem_cons_self f rest)
        · rcases ih h2 with h3 | h3
          · exact Or.inl h3
          · exact Or.inr (List.mem_cons_of_mem f h3)

/-- `btreeInsert` keeps the map sorted strictly by key. -/
theorem btreeInsert_pairwise {m : List (Nat × Nat)} {k v : Nat}
    (hp : List.Pairwise (fun a b => a.1 < b.1) m) :
    List.Pairwise (fun a b => a.1 < b.1) (btreeInsert m k v) := by
  induction m with
  | nil => simp [btreeInsert]
  | cons f rest ih =>
    obtain ⟨hf, hrest⟩ := List.pairwise_cons.mp hp
    unfold btreeInsert
    split
    · refine List.pairwise_cons.mpr ⟨?_, hp⟩
      intro e he
      rcases List.mem_cons.mp he with h2 | h2
      · rw [h2]
        assumption
      · have := hf e h2
        rename_i hk2
        omega
    · split
      · refine List.pairwise_cons.mpr ⟨?_, hrest⟩
        intro e he
        have := hf e he
        rename_i hk1 hk2
        omega
      · refine List.pairwise_cons.mpr ⟨?_, ih hrest⟩
        intro e he
        rcases btreeInsert_mem he with h2 | h2
        · rw [h2]
          rename_i hk1 hk2
          simp only
          omega
        · exact hf e h2

/-- With a sorted map, `btreeInsert` replaces the binding of `k`: every
entry is the new one or an old entry with a different key. -/
theorem btreeInsert_mem_strong {m : List (Nat × Nat)} {k v : Nat}
    {e : Nat × Nat} (hp : List.Pairwise (fun a b => a.1 < b.1) m) :
    e ∈ btreeInsert m k v → e = (k, v) ∨ (e ∈ m ∧ e.1 ≠ k) := by
  induction m with
  | nil => intro h; simp [btreeInsert] at h; exact Or.inl h
  | cons f rest ih =>
    obtain ⟨hf, hrest⟩ := List.pairwise_cons.mp hp
    intro h
    unfold btreeInsert at h
    split at h
    · rename_i hk1
      rcases List.mem_cons.mp h with h2 | h2
      · exact Or.inl h2
      · refine Or.inr ⟨h2, ?_⟩
        rcases List.mem_cons.mp h2 with h3 | h3
        · rw [h3]; omega
        · have := hf e h3
          omega
    · split at h
      · rename_i hk1 hk2
        rcases List.mem_cons.mp h with h2 | h2
        · exact Or.inl h2
        · refine Or.inr ⟨List.mem_cons_of_mem f h2, ?_⟩
          have := hf e h2
          omega
      · rename_i hk1 hk2
        rcases List.mem_cons.mp h with h2 | h2
        · refine Or.inr ⟨h2 ▸ List.mem_cons_self f rest, ?_⟩
          rw [h2]
          omega
        · rcases ih hrest h2 with h3 | h3
          · exact Or.inl h3
          · exact Or.inr ⟨List.mem_cons_of_mem f h3.1, h3.2⟩

/-- Re-derivation of the anchor map after an insertion: with the post-insert
chain invariant, entries below the window already point at their node and
in-window entries point at the node now one position to the right, so the
pass succeeds, afterwards every entry points at its node, and the keys are
untouched. -/
theorem rederiveRange_spec {α : Type} {l2 : DoubleLinkedList α}
    {ch2 : List Nat} (h2 : ChainInv l2 ch2) (lo : Nat) :
    ∀ m : List (Nat × Nat),
      (∀ e ∈ m, e.1 < ch2.length ∧
        (e.1 < lo → ch2[e.1]? = some e.2) ∧
        (lo ≤ e.1 → ch2[e.1 + 1]? = some e.2)) →
      ∃ m2, rederiveRange l2.store m lo ch2.length = some m2 ∧
        (∀ e ∈ m2, e.1 < ch2.length ∧ ch2[e.1]? = some e.2) ∧
        m2.map Prod.fst = m.map Prod.fst := by
  intro m
  induction m with
  | nil =>
    intro _
    refine ⟨[], rfl, ?_, rfl⟩
    intro e he
    cases he
  | cons e rest ih =>
    intro hm
    have he := hm e (List.mem_cons_self e rest)
    obtain ⟨m2r, hr1, hr2, hr3⟩ :=
      ih (fun e2 he2 => hm e2 (List.mem_cons_of_mem e he2))
    by_cases hin : lo ≤ e.1 ∧ e.1 < ch2.length
    · have hch := he.2.2 hin.1
      obtain ⟨node, hnode, hp, -⟩ := h2.node hch
      rw [if_neg (by omega)] at hp
      simp only [Nat.add_sub_cancel] at hp
      obtain ⟨rv, hex⟩ : ∃ rv, ch2[e.1]? = some rv := by
        cases hq : ch2[e.1]? with
        | none =>
          rw [List.getElem?_eq_none_iff] at hq
          omega
        | some rv => exact ⟨rv, rfl⟩
      have hstep : (l2.store.get e.2).bind (fun node => node.prev) =
          some rv := by
        have hred : (some node).bind (fun node => node.prev) = node.prev := rfl
        rw [hnode, hred, hp, hex]
      refine ⟨(e.1, rv) :: m2r, ?_, ?_, ?_⟩
      · simp only [rederiveRange]
        rw [if_pos hin, hstep]
        simp only [hr1, Option.map_some']
      · intro e2 he2
        rcases List.mem_cons.mp he2 with h3 | h3
        · subst h3
          exact ⟨he.1, hex⟩
        · exact hr2 e2 h3
      · simp only [List.map_cons, hr3]
    · have hlt : e.1 < lo := by
        rcases Nat.lt_or_ge e.1 lo with h3 | h3
        · exact h3
        · exact absurd ⟨h3, he.1⟩ hin
      have hch := he.2.1 hlt
      refine ⟨e :: m2r, ?_, ?_, ?_⟩
      · simp only [rederiveRange]
        rw [if_neg hin]
        simp only [hr1, Option.map_some']
      · intro e2 he2
        rcases List.mem_cons.mp he2 with h3 | h3
        · subst h3
          exact ⟨he.1, hch⟩
        · exact hr2 e2 h3
      · simp only [List.map_cons, hr3]

/-- Core equivalence behind C2: on a well-formed list, with a sorted anchor
map whose entries each point at their chain node, the `multi_insert` loop
performs exactly the iterated `insert`s and reports success. -/
theorem multiInsertLoop_eq {α : Type} :
    ∀ (pairs : List (Nat × α)) (l : DoubleLinkedList α) (ch : List Nat)
      (m : List (Nat × Nat)),
      ChainInv l ch →
      m ≠ [] →
      List.Pairwise (fun a b => a.1 < b.1) m →
      (∀ e ∈ m, e.1 < l.len ∧ ch[e.1]? = some e.2) →
      multiInsertLoop l m pairs = (l.insertAll pairs, some ()) := by
  intro pairs
  induction pairs with
  | nil =>
    intro l ch m _ _ _ _
    rfl
  | cons pv rest ih =>
    intro l ch m h hne hp hmap
    obtain ⟨index, value⟩ := pv
    by_cases hk : l.len ≤ index
    · have hloop : multiInsertLoop l m ((index, value) :: rest) =
          multiInsertLoop l m rest := by
        simp only [multiInsertLoop]
        rw [if_pos hk]
      have hins : l.insertAll ((index, value) :: rest) = l.insertAll rest := by
        unfold DoubleLinkedList.insertAll
        simp only [List.foldl_cons]
        rw [insert_oob l index value hk]
      rw [hloop, hins]
      exact ih l ch m h hne hp hmap
    · have hk2 : index < l.len := by omega
      have hcsome := closest_entry_isSome m index hne
      obtain ⟨closest, hclosest⟩ := Option.isSome_iff_exists.mp hcsome
      have hcmem := closest_entry_mem hclosest
      obtain ⟨hclt, hcch⟩ := hmap closest hcmem
      have hlench : ch.length = l.len := h.2.1
      obtain ⟨tv, htv⟩ : ∃ tv, ch[index]? = some tv := by
        cases hq : ch[index]? with
        | none =>
          rw [List.getElem?_eq_none_iff] at hq
          omega
        | some tv => exact ⟨tv, rfl⟩
      have htrue : (if index ≤ closest.1 then
          l.get_left_neighbour closest.2 (closest.1 - index)
        else l.get_right_neighbour closest.2 (index - closest.1)) = some tv := by
        by_cases hle : index ≤ closest.1
        · rw [if_pos hle]
          unfold DoubleLinkedList.get_left_neighbour
          by_cases hd : closest.1 - index = 0
          · rw [if_pos hd]
            have hceq : closest.1 = index := by omega
            rw [hceq] at hcch
            rw [hcch] at htv
            rw [Option.some_inj.mp htv]
          · rw [if_neg hd]
            have hw := chain_walkPrev h (closest.1 - index) closest.1 closest.2
              hcch (by omega)
            have he2 : closest.1 - (closest.1 - index) = index := by omega
            rw [he2, htv] at hw
            exact hw
        · rw [if_neg hle]
          unfold DoubleLinkedList.get_right_neighbour
          rw [if_neg (by omega)]
          have hw := chain_walkNext h (index - closest.1) closest.1 closest.2
            hcch (by omega)
          have he2 : closest.1 + (index - closest.1) = index := by omega
          rw [he2, htv] at hw
          exact hw
      obtain ⟨l2, nr, hil, hinv2, hlen2, hend2⟩ := insert_left_spec h htv value
      have hloop : multiInsertLoop l m ((index, value) :: rest) =
          (match rederiveRange l2.store (btreeInsert m index nr)
              (index + 1) l2.len with
           | none => (l2, none)
           | some m2 => multiInsertLoop l2 m2 rest) := by
        simp only [multiInsertLoop, if_neg hk, hclosest, htrue, hil]
      have hl2len_eq : l2.len = (ch.insertIdx index nr).length := by
        rw [hinv2.2.1]
      have hpre : ∀ e ∈ btreeInsert m index nr,
          e.1 < (ch.insertIdx index nr).length ∧
          (e.1 < index + 1 → (ch.insertIdx index nr)[e.1]? = some e.2) ∧
          (index + 1 ≤ e.1 → (ch.insertIdx index nr)[e.1 + 1]? = some e.2) := by
        intro e hee
        have hch' : (ch.insertIdx index nr).length = ch.length + 1 := by
          rw [hl2len_eq] at hlen2
          omega
        rcases btreeInsert_mem_strong hp hee with h3 | ⟨h3, h4⟩
        · subst h3
          refine ⟨by simp only; omega, ?_, ?_⟩
          · intro _
            exact List.getElem?_insertIdx_self nr index ch (by omega)
          · intro habs
            simp only at habs
            omega
        · obtain ⟨helt, hech⟩ := hmap e h3
          refine ⟨by omega, ?_, ?_⟩
          · intro hlt2
            rw [List.getElem?_insertIdx_lt nr index ch e.1 (by omega)]
            exact hech
          · intro hge
            rw [List.getElem?_insertIdx_gt nr index ch (e.1 + 1) (by omega)]
            simpa using hech
      obtain ⟨m2, hm2eq, hm2inv, hm2keys⟩ :=
        rederiveRange_spec hinv2 (index + 1) (btreeInsert m index nr) hpre
      have hm2ne : m2 ≠ [] := by
        intro habs
        rw [habs] at hm2keys
        exact btreeInsert_ne_nil m index nr (List.map_eq_nil_iff.mp hm2keys.symm)
      have hm2p : List.Pairwise (fun a b => a.1 < b.1) m2 := by
        have hp1 := btreeInsert_pairwise (k := index) (v := nr) hp
        have hq : List.Pairwise (fun a b : Nat => a < b) (m2.map Prod.fst) := by
          rw [hm2keys]
          exact List.pairwise_map.mpr hp1
        exact List.pairwise_map.mp hq
      have hmap2 : ∀ e ∈ m2, e.1 < l2.len ∧
          (ch.insertIdx index nr)[e.1]? = some e.2 := by
        intro e hee
        obtain ⟨h5, h6⟩ := hm2inv e hee
        refine ⟨?_, h6⟩
        rw [hl2len_eq]
        exact h5
      have hinsAll : l.insertAll ((index, value) :: rest) = l2.insertAll rest := by
        unfold DoubleLinkedList.insertAll
        simp only [List.foldl_cons]
        have hieq := insert_eq_insert_left h hk2 htv value
        rw [hieq, hil]
      rw [hloop, hinsAll, hl2len_eq, hm2eq]
      exact ih l2 (ch.insertIdx index nr) m2 hinv2 hm2ne hm2p hmap2

/-- On an empty list the `multi_insert` loop skips every pair. -/
theorem multiInsertLoop_len_zero {α : Type} {l : DoubleLinkedList α}
    (hz : l.len = 0) :
    ∀ (pairs : List (Nat × α)) (m : List (Nat × Nat)),
      multiInsertLoop l m pairs = (l, some ()) := by
  intro pairs
  induction pairs with
  | nil => intro m; rfl
  | cons pv rest ih =>
    intro m
    obtain ⟨index, value⟩ := pv
    have hstep : multiInsertLoop l m ((index, value) :: rest) =
        multiInsertLoop l m rest := by
      simp only [multiInsertLoop]
      rw [if_pos (by omega)]
    rw [hstep]
    exact ih m

/-- On an empty list every iterated `insert` is a no-op. -/
theorem insertAll_len_zero {α : Type} {l : DoubleLinkedList α}
    (hz : l.len = 0) :
    ∀ pairs : List (Nat × α), l.insertAll pairs = l := by
  intro pairs
  induction pairs with
  | nil => rfl
  | cons pv rest ih =>
    obtain ⟨index, value⟩ := pv
    unfold DoubleLinkedList.insertAll at ih ⊢
    simp only [List.foldl_cons]
    rw [insert_oob l index value (by omega)]
    exact ih

/-- C2, amended.  On every well-formed list (one satisfying the chain
invariant — every list reachable without triggering the `multi_push_front`
link bug), a single `multi_insert` over a sequence of (position, value)
pairs produces literally the same list state as calling
`insert(position, value)` once per pair in the same order, and in
particular the same sequence of values in list order; `multi_insert` also
reports success.  The claim's original universal form fails on reachable
corrupted lists, see the counterexample. -/
theorem multi_insert_eq_iterated_insert {α : Type} (l : DoubleLinkedList α)
    (ch : List Nat) (h : ChainInv l ch) (pairs : List (Nat × α)) :
    (l.multi_insert pairs).1.toList = (l.insertAll pairs).toList ∧
    (l.multi_insert pairs).1 = l.insertAll pairs ∧
    (l.multi_insert pairs).2 = some () := by
  have hmain : l.multi_insert pairs = (l.insertAll pairs, some ()) := by
    unfold DoubleLinkedList.multi_insert
    by_cases hz : l.len = 0
    · rw [multiInsertLoop_len_zero hz, insertAll_len_zero hz]
    · have hpos : 0 < l.len := by omega
      have hlench : ch.length = l.len := h.2.1
      have hne : ch ≠ [] := by
        intro he
        rw [he] at hlench
        simp at hlench
        omega
      obtain ⟨hhead, hlast⟩ := h.2.2.1.resolve_left hne
      have hhead2 : ch[0]? = some l.start := by
        rw [List.head?_eq_getElem?] at hhead
        exact hhead
      have hlast2 : ch[l.len - 1]? = some l.endRef := by
        rw [List.getLast?_eq_getElem?, hlench] at hlast
        exact hlast
      refine multiInsertLoop_eq pairs l ch _ h (btreeInsert_ne_nil _ _ _)
        (btreeInsert_pairwise (btreeInsert_pairwise List.Pairwise.nil)) ?_
      intro e hee
      rcases btreeInsert_mem hee with h3 | h3
      · subst h3
        exact ⟨by omega, hlast2⟩
      · rcases btreeInsert_mem h3 with h4 | h4
        · subst h4
          exact ⟨by omega, hhead2⟩
        · cases h4
  rw [hmain]
  exact ⟨rfl, rfl, rfl⟩

/-- List `[32, 12, 55, 12]` (the repository's own test fixture), built by
four pushes; its chain is `[0, 1, 2, 3]`. -/
def c2WitnessList : DoubleLinkedList Nat :=
  ((((DoubleLinkedList.new.push 32).1.push 12).1.push 55).1.push 12).1

/-- Witness for the amended C2: the chain invariant of the concrete fixture
holds and `multi_insert` agrees with iterated `insert` on the pair list of
the repository's `test_multi_insert_2`. -/
theorem multi_insert_eq_iterated_insert_witness :
    ChainInv c2WitnessList [0, 1, 2, 3] ∧
    (c2WitnessList.multi_insert
        [(3, 10), (1, 20), (0, 30), (2, 40), (4, 50)]).1.toList =
      (c2WitnessList.insertAll
        [(3, 10), (1, 20), (0, 30), (2, 40), (4, 50)]).toList := by
  refine ⟨by decide, ?_⟩
  exact (multi_insert_eq_iterated_insert c2WitnessList [0, 1, 2, 3] (by decide) _).1

/-- The corrupted — but reachable, via `push(1); push(2);
multi_push_front([3])` and the C1 link bug — list on which C2's universal
statement fails. -/
def c2CorruptList : DoubleLinkedList Nat :=
  (((DoubleLinkedList.new.push 1).1.push 2).1.multi_push_front [3]).1

/-- C2, counterexample to the claim as stated.  On the reachable corrupted
list `[3, 1, 2]` (whose `prev` links are broken by the `multi_push_front`
bug), inserting `(1, 99)` by `multi_insert` yields values `[99, 3, 1, 2]`
while one `insert(1, 99)` yields `[99, 1, 2]`: the two orders differ, so
`multi_insert` is not equivalent to iterated `insert` on every
`DoubleLinkedList`. -/
theorem multi_insert_differs_from_iterated_on_corrupt_list :
    (c2CorruptList.multi_insert [(1, 99)]).1.toList = [99, 3, 1, 2] ∧
    (c2CorruptList.insertAll [(1, 99)]).toList = [99, 1, 2] ∧
    (c2CorruptList.multi_insert [(1, 99)]).1.toList ≠
      (c2CorruptList.insertAll [(1, 99)]).toList := by
  refine ⟨rfl, rfl, by decide⟩
